import Mathlib

/-!
Verification development for the SaperOnline Minesweeper repository.

The board engine (src/utils/gameLogic.ts, two observed revisions) and the
host-side session handlers (src/App.tsx) are embedded shallowly:

* TypeScript arrays of cells become `List (List CellData)`.
* `Math.floor(Math.random() * rows)` draws are modelled as an explicit list
  of proposed `(row, col)` pairs (each in `[0, rows) × [0, cols)` as the
  source guarantees); the rejection-sampling `while` loop becomes a
  recursion on that list, returning `none` when the loop has not finished
  within the supplied draws.
* JavaScript expressions that would throw a `TypeError` (indexing a cell of
  a row that does not exist, e.g. `board[row][col].status` out of bounds)
  are modelled with `Option`, returning `none` on the crashing path.
* The BFS flood-fill `while` loop becomes a well-founded recursion on the
  measure `9 * hiddenCount + queue length`.
-/

/-- Cell status, from `src/unnamed/part_000` (`types.ts`):
`'hidden' | 'revealed' | 'flagged'`. -/
inductive CellStatus
  | hidden
  | revealed
  | flagged
deriving DecidableEq, Repr

/-- `CellData` from `types.ts`. The optional `exploded?: boolean` field is
modelled as a `Bool` that is `false` where the source leaves it absent. -/
structure CellData where
  row : Nat
  col : Nat
  isMine : Bool
  status : CellStatus
  neighborMines : Nat
  exploded : Bool
deriving DecidableEq, Repr

/-- `BoardData = CellData[][]`. -/
abbrev BoardData := List (List CellData)

/-- `Difficulty` from `types.ts`. -/
structure Difficulty where
  name : String
  rows : Nat
  cols : Nat
  mines : Nat
deriving DecidableEq, Repr

/-- Placeholder cell returned by out-of-bounds reads of total functions.
Crashing reads of the source are modelled with `Option` instead. -/
def defaultCell : CellData :=
  { row := 0, col := 0, isMine := false, status := CellStatus.hidden
    neighborMines := 0, exploded := false }

/-- Read `board[r][c]` (total; out-of-bounds gives `defaultCell`). -/
def getCell (b : BoardData) (r c : Nat) : CellData :=
  (b.getD r []).getD c defaultCell

/-- Replace `board[r][c]` with `x` (no-op out of bounds). -/
def setCell (b : BoardData) (r c : Nat) (x : CellData) : BoardData :=
  b.set r ((b.getD r []).set c x)

/-- `DIRECTIONS` from `gameLogic.ts`: the 8 Moore-neighbourhood offsets
(Top, TR, Right, BR, Bottom, BL, Left, TL). -/
def DIRECTIONS : List (Int × Int) :=
  [(-1, 0), (-1, 1), (0, 1), (1, 1), (1, 0), (1, -1), (0, -1), (-1, -1)]

/-- `createEmptyBoard` from `gameLogic.ts` (identical in both revisions). -/
def createEmptyBoard (rows cols : Nat) : BoardData :=
  (List.range rows).map (fun r =>
    (List.range cols).map (fun c =>
      { row := r, col := c, isMine := false, status := CellStatus.hidden
        neighborMines := 0, exploded := false }))

/-- `board[r][c].isMine = true` update used by the placement loop. -/
def setMine (b : BoardData) (r c : Nat) : BoardData :=
  setCell b r c { getCell b r c with isMine := true }

/-- The placement `while` loop of `initializeBoardWithMines`, shared by both
revisions; `excl` is the "safe start" skip test (revision-specific), and
`draws` is the modelled stream of random `(r, c)` proposals.  The source
loop runs until `minesPlaced = mines`; exhausting `draws` before that point
(the still-looping program) is modelled as `none`. -/
def placeMinesLoop (excl : Nat → Nat → Bool) (mines : Nat) :
    BoardData → Nat → List (Nat × Nat) → Option BoardData
  | board, minesPlaced, [] =>
      if minesPlaced < mines then none else some board
  | board, minesPlaced, (r, c) :: rest =>
      if minesPlaced < mines then
        if (getCell board r c).isMine then
          placeMinesLoop excl mines board minesPlaced rest
        else if excl r c then
          placeMinesLoop excl mines board minesPlaced rest
        else
          placeMinesLoop excl mines (setMine board r c) (minesPlaced + 1) rest
      else some board

/-- Count of mines among the in-bounds Moore neighbours of `(r, c)`,
exactly as the `DIRECTIONS.forEach` counting loop of
`initializeBoardWithMines` computes it. -/
def countAdjacentMines (b : BoardData) (rows cols r c : Nat) : Nat :=
  (DIRECTIONS.filter (fun d =>
    let nr : Int := (r : Int) + d.1
    let nc : Int := (c : Int) + d.2
    decide (0 ≤ nr) && decide (nr < (rows : Int)) &&
    decide (0 ≤ nc) && decide (nc < (cols : Int)) &&
    (getCell b nr.toNat nc.toNat).isMine)).length

/-- The "Calculate neighbor numbers" pass of `initializeBoardWithMines`:
for every cell with `r < rows`, `c < cols` that is not a mine, set
`neighborMines` to the adjacent-mine count; mine cells are skipped and keep
their incoming `neighborMines`.  The source loop writes `neighborMines`
sequentially but reads only `isMine`, so it equals this simultaneous map. -/
def computeNeighbors (rows cols : Nat) (b : BoardData) : BoardData :=
  (List.range b.length).map (fun r =>
    (List.range (b.getD r []).length).map (fun c =>
      let cell := getCell b r c
      if decide (r < rows) && decide (c < cols) && !cell.isMine then
        { cell with neighborMines := countAdjacentMines b rows cols r c }
      else cell))

/-- `initializeBoardWithMines` from `src/unnamed/part_004`: the safe-start
exclusion skips only the first-clicked cell itself. -/
def initializeBoardWithMines (initialBoard : BoardData) (d : Difficulty)
    (firstClickRow firstClickCol : Nat) (draws : List (Nat × Nat)) :
    Option BoardData :=
  (placeMinesLoop (fun r c => r == firstClickRow && c == firstClickCol)
      d.mines initialBoard 0 draws).map (computeNeighbors d.rows d.cols)

/-- The `isNeighborOfFirstClick` scan of `src/unnamed/part_003`:
`r === firstClickRow + dr && c === firstClickCol + dc` for some direction
(computed in `Int`, as JavaScript arithmetic does). -/
def isNeighborOfFirstClick (firstClickRow firstClickCol r c : Nat) : Bool :=
  DIRECTIONS.any (fun d =>
    decide ((r : Int) = (firstClickRow : Int) + d.1) &&
    decide ((c : Int) = (firstClickCol : Int) + d.2))

/-- `initializeBoardWithMines` from `src/unnamed/part_003`: the expanded
safe zone also skips the up-to-8 neighbours of the first click. -/
def initializeBoardWithMinesExpanded (initialBoard : BoardData)
    (d : Difficulty) (firstClickRow firstClickCol : Nat)
    (draws : List (Nat × Nat)) : Option BoardData :=
  (placeMinesLoop
      (fun r c => (r == firstClickRow && c == firstClickCol) ||
        isNeighborOfFirstClick firstClickRow firstClickCol r c)
      d.mines initialBoard 0 draws).map (computeNeighbors d.rows d.cols)

/-- `toggleFlag` from `gameLogic.ts` (identical in both revisions).
`board[row][col]` on an out-of-bounds position throws in the source, hence
`none`. -/
def toggleFlag (currentBoard : BoardData) (row col : Nat) :
    Option BoardData :=
  if row < currentBoard.length ∧ col < (currentBoard.getD row []).length then
    let cell := getCell currentBoard row col
    if cell.status = CellStatus.hidden then
      some (setCell currentBoard row col { cell with status := CellStatus.flagged })
    else if cell.status = CellStatus.flagged then
      some (setCell currentBoard row col { cell with status := CellStatus.hidden })
    else some currentBoard
  else none

/-- The `revealedCount` accumulation inside `checkWin`: cells with
`status === 'revealed' && !isMine` counted over `r < rows`, `c < cols`. -/
def revealedSafeCount (board : BoardData) (rows cols : Nat) : Nat :=
  ((List.range rows).map (fun r =>
    ((List.range cols).filter (fun c =>
      (getCell board r c).status == CellStatus.revealed &&
      !(getCell board r c).isMine)).length)).sum

/-- `checkWin` from `gameLogic.ts` (identical in both revisions):
`revealedCount === rows*cols - mines`, with the subtraction in `Int` as in
JavaScript number arithmetic. -/
def checkWin (board : BoardData) (d : Difficulty) : Bool :=
  (revealedSafeCount board d.rows d.cols : Int) ==
    (d.rows : Int) * (d.cols : Int) - (d.mines : Int)

/-- `revealAllMines` from `gameLogic.ts` (identical in both revisions):
on win flag every mine; on loss reveal every mine not already flagged. -/
def revealAllMines (currentBoard : BoardData) (won : Bool) : BoardData :=
  currentBoard.map (fun row => row.map (fun cell =>
    if cell.isMine then
      if won then { cell with status := CellStatus.flagged }
      else if cell.status ≠ CellStatus.flagged then
        { cell with status := CellStatus.revealed }
      else cell
    else cell))

/-- Number of cells of the whole grid satisfying `p` (used to state the
"exactly `mines` mines", flag-count and hidden-count properties). -/
def cellCount (p : CellData → Bool) (b : BoardData) : Nat :=
  (b.map (fun row => row.countP p)).sum

/-! ### Basic list-level helper lemmas -/

theorem getD_range_map {β : Type} (f : Nat → β) (n i : Nat) (d : β) :
    (((List.range n).map f).getD i d) = if i < n then f i else d := by
  by_cases h : i < n
  · rw [List.getD_eq_getElem?_getD, List.getElem?_map, List.getElem?_range h]
    simp [h]
  · rw [List.getD_eq_getElem?_getD, List.getElem?_map,
      List.getElem?_eq_none (by simpa using Nat.le_of_not_lt h)]
    simp [h]

theorem getD_set_self {α : Type} (l : List α) (i : Nat) (x d : α)
    (h : i < l.length) : (l.set i x).getD i d = x := by
  simp [List.getD_eq_getElem?_getD, List.getElem?_set_self h]

theorem getD_set_ne {α : Type} (l : List α) (i j : Nat) (x d : α)
    (h : i ≠ j) : (l.set i x).getD j d = l.getD j d := by
  simp [List.getD_eq_getElem?_getD, List.getElem?_set_ne h]

theorem sum_set_nat (l : List Nat) (i : Nat) (x : Nat) (h : i < l.length) :
    (l.set i x).sum + l.getD i 0 = l.sum + x := by
  induction l generalizing i with
  | nil => simp at h
  | cons a tl ih =>
    cases i with
    | zero => simp [List.set, List.getD]; omega
    | succ j =>
      simp only [List.set, List.sum_cons, List.getD_cons_succ]
      have := ih j (by simpa using h)
      omega

theorem countP_set {α : Type} (p : α → Bool) (l : List α) (i : Nat) (x d : α)
    (h : i < l.length) :
    (l.set i x).countP p + (if p (l.getD i d) then 1 else 0) =
      l.countP p + (if p x then 1 else 0) := by
  induction l generalizing i with
  | nil => simp at h
  | cons a tl ih =>
    cases i with
    | zero =>
      simp only [List.set, List.countP_cons, List.getD_cons_zero]
      by_cases hx : p x <;> by_cases ha : p a <;> simp [hx, ha]
    | succ j =>
      have ih' := ih j (by simpa using h)
      simp only [List.set_cons_succ, List.countP_cons, List.getD_cons_succ]
      by_cases ha : p a = true
      · rw [if_pos ha]; omega
      · rw [if_neg ha]; omega

/-! ### `getCell` / `setCell` algebra -/

theorem length_setCell (b : BoardData) (r c : Nat) (x : CellData) :
    (setCell b r c x).length = b.length := by
  simp [setCell]

theorem rowLen_setCell (b : BoardData) (r c i : Nat) (x : CellData) :
    ((setCell b r c x).getD i []).length = (b.getD i []).length := by
  by_cases h : r = i
  · subst h
    by_cases hr : r < b.length
    · rw [setCell, getD_set_self _ _ _ _ (by simpa using hr)]
      simp
    · rw [setCell, List.set_eq_of_length_le (by simpa using Nat.le_of_not_lt hr)]
  · rw [setCell, getD_set_ne _ _ _ _ _ h]

theorem getCell_setCell_self (b : BoardData) (r c : Nat) (x : CellData)
    (hr : r < b.length) (hc : c < (b.getD r []).length) :
    getCell (setCell b r c x) r c = x := by
  rw [getCell, setCell, getD_set_self _ _ _ _ (by simpa using hr),
    getD_set_self _ _ _ _ (by simpa using hc)]

theorem getCell_setCell_ne (b : BoardData) (r c r' c' : Nat) (x : CellData)
    (h : ¬(r' = r ∧ c' = c)) :
    getCell (setCell b r c x) r' c' = getCell b r' c' := by
  by_cases hr : r = r'
  · subst hr
    have hc : c' ≠ c := fun hh => h ⟨rfl, hh⟩
    by_cases hrb : r < b.length
    · rw [getCell, setCell, getD_set_self _ _ _ _ (by simpa using hrb),
        getD_set_ne _ _ _ _ _ (fun hh => hc hh.symm), getCell]
    · rw [getCell, setCell, List.set_eq_of_length_le
        (by simpa using Nat.le_of_not_lt hrb), getCell]
  · rw [getCell, setCell, getD_set_ne _ _ _ _ _ hr, getCell]

theorem cellCount_setCell (p : CellData → Bool) (b : BoardData) (r c : Nat)
    (x : CellData) (hr : r < b.length) (hc : c < (b.getD r []).length) :
    cellCount p (setCell b r c x) + (if p (getCell b r c) then 1 else 0) =
      cellCount p b + (if p x then 1 else 0) := by
  have hrlen : r < (b.map (fun row => row.countP p)).length := by simpa using hr
  have hsum := sum_set_nat (b.map (fun row => row.countP p)) r
      (((b.getD r []).set c x).countP p) hrlen
  have hgetD : (b.map (fun row => row.countP p)).getD r 0 = (b.getD r []).countP p := by
    simp [List.getD_eq_getElem?_getD, List.getElem?_map,
      List.getElem?_eq_getElem (by simpa using hr)]
  have hcp := countP_set p (b.getD r []) c x defaultCell hc
  simp only [cellCount, getCell, setCell, List.map_set]
  omega

/-! ### Flood-fill BFS (`revealCell`) -/

/-- `board[0].length`, the column bound the BFS guard reads. -/
def boardCols (b : BoardData) : Nat := (b.getD 0 []).length

/-- `current.status = 'revealed'` mutation inside the BFS loop. -/
def revealAt (b : BoardData) (r c : Nat) : BoardData :=
  setCell b r c { getCell b r c with status := CellStatus.revealed }

/-- Number of hidden cells of the grid (BFS termination measure). -/
def hiddenCount (b : BoardData) : Nat :=
  cellCount (fun cell => cell.status == CellStatus.hidden) b

/-- The `DIRECTIONS.forEach` enqueueing step: in-bounds neighbours of
`(r, c)` that are still hidden, in direction order. -/
def pushNeighbors (b : BoardData) (r c : Nat) : List (Nat × Nat) :=
  DIRECTIONS.filterMap (fun d =>
    let nr : Int := (r : Int) + d.1
    let nc : Int := (c : Int) + d.2
    if 0 ≤ nr ∧ nr < (b.length : Int) ∧ 0 ≤ nc ∧ nc < (boardCols b : Int) ∧
        (getCell b nr.toNat nc.toNat).status = CellStatus.hidden then
      some (nr.toNat, nc.toNat)
    else none)

theorem pushNeighbors_length_le (b : BoardData) (r c : Nat) :
    (pushNeighbors b r c).length ≤ 8 := by
  have h := List.length_filterMap_le (fun (d : Int × Int) =>
    let nr : Int := (r : Int) + d.1
    let nc : Int := (c : Int) + d.2
    if 0 ≤ nr ∧ nr < (b.length : Int) ∧ 0 ≤ nc ∧ nc < (boardCols b : Int) ∧
        (getCell b nr.toNat nc.toNat).status = CellStatus.hidden then
      some (nr.toNat, nc.toNat)
    else none) DIRECTIONS
  simpa [pushNeighbors, DIRECTIONS] using h

theorem hiddenCount_revealAt (b : BoardData) (r c : Nat)
    (hr : r < b.length) (hc : c < (b.getD r []).length)
    (hstat : (getCell b r c).status = CellStatus.hidden) :
    hiddenCount b = hiddenCount (revealAt b r c) + 1 := by
  have h := cellCount_setCell (fun cell => cell.status == CellStatus.hidden)
    b r c { getCell b r c with status := CellStatus.revealed } hr hc
  simp only [hstat] at h
  simp only [hiddenCount, revealAt]
  simpa using h.symm

/-- The BFS `while (queue.length > 0)` loop of `revealCell`.  A dequeued
coordinate outside the grid would crash the source (`board[r][c].status` on
`undefined`), modelled as `none`; the source only ever enqueues in-bounds
coordinates, so that branch is unreachable from `revealCell`.

The loop is written as structural recursion on an explicit iteration bound
`fuel`; `revealCell` supplies `9 * hiddenCount + 1`, which exceeds the
loop variant `9 * hiddenCount + queue length` of every reachable state
(each iteration either dequeues a non-hidden cell, shrinking the queue, or
reveals a hidden cell, enqueueing at most 8 neighbours), so the out-of-fuel
answer `none` is never returned on those inputs (`bfsLoop_isSome`). -/
def bfsLoop : Nat → BoardData → List (Nat × Nat) → Option BoardData
  | _, b, [] => some b
  | 0, _, _ :: _ => none
  | fuel + 1, b, (r, c) :: rest =>
    if r < b.length ∧ c < (b.getD r []).length then
      if (getCell b r c).status = CellStatus.hidden then
        if (getCell b r c).neighborMines = 0 then
          bfsLoop fuel (revealAt b r c)
            (rest ++ pushNeighbors (revealAt b r c) r c)
        else
          bfsLoop fuel (revealAt b r c) rest
      else bfsLoop fuel b rest
    else none

/-- `revealCell` from `gameLogic.ts` (identical in both revisions): no-op on
non-hidden cells, explode on a mine, flood fill otherwise.  Out-of-bounds
coordinates crash the source (`none`). -/
def revealCell (currentBoard : BoardData) (row col : Nat) :
    Option (BoardData × Bool) :=
  if row < currentBoard.length ∧ col < (currentBoard.getD row []).length then
    let cell := getCell currentBoard row col
    if cell.status ≠ CellStatus.hidden then some (currentBoard, false)
    else if cell.isMine then
      some (setCell currentBoard row col
        { cell with status := CellStatus.revealed, exploded := true }, true)
    else (bfsLoop (hiddenCount currentBoard * 9 + 1) currentBoard
      [(row, col)]).map (fun b => (b, false))
  else none

/-! ### Board shape -/

/-- `b` is a rectangular `rows × cols` grid. -/
def dims (b : BoardData) (rows cols : Nat) : Prop :=
  b.length = rows ∧ ∀ r, r < rows → (b.getD r []).length = cols

instance dimsDecidable (b : BoardData) (rows cols : Nat) :
    Decidable (dims b rows cols) := by
  unfold dims
  infer_instance

theorem dims_setCell (b : BoardData) (rows cols r c : Nat) (x : CellData)
    (h : dims b rows cols) : dims (setCell b r c x) rows cols := by
  refine ⟨by rw [length_setCell]; exact h.1, fun i hi => ?_⟩
  rw [rowLen_setCell]
  exact h.2 i hi

/-! ### Mine placement: shape, count and frame -/

theorem placeMinesLoop_spec (excl : Nat → Nat → Bool) (mines rows cols : Nat) :
    ∀ (draws : List (Nat × Nat)) (board : BoardData) (mp : Nat)
      (out : BoardData),
      dims board rows cols →
      (∀ x ∈ draws, x.1 < rows ∧ x.2 < cols) →
      mp ≤ mines →
      placeMinesLoop excl mines board mp draws = some out →
      dims out rows cols ∧
      cellCount (fun cell => cell.isMine) out + mp =
        cellCount (fun cell => cell.isMine) board + mines ∧
      (∀ r c, getCell out r c = getCell board r c ∨
        (excl r c = false ∧ (getCell board r c).isMine = false ∧
          getCell out r c = { getCell board r c with isMine := true })) := by
  intro draws
  induction draws with
  | nil =>
    intro board mp out hdims hdraws hmp hrun
    simp only [placeMinesLoop] at hrun
    by_cases h1 : mp < mines
    · simp [h1] at hrun
    · simp [h1] at hrun
      subst hrun
      exact ⟨hdims, by omega, fun r c => Or.inl rfl⟩
  | cons hd rest ih =>
    intro board mp out hdims hdraws hmp hrun
    obtain ⟨r, c⟩ := hd
    simp only [placeMinesLoop] at hrun
    have hrestdraws : ∀ x ∈ rest, x.1 < rows ∧ x.2 < cols :=
      fun x hx => hdraws x (List.mem_cons_of_mem _ hx)
    have hrc : r < rows ∧ c < cols := hdraws (r, c) (List.mem_cons_self _ _)
    split_ifs at hrun with h1 h2 h3
    · -- collision with an existing mine: resample
      exact ih board mp out hdims hrestdraws hmp hrun
    · -- excluded by the safe-start rule: resample
      exact ih board mp out hdims hrestdraws hmp hrun
    · -- place a mine at (r, c)
      have hrb : r < board.length := by rw [hdims.1]; exact hrc.1
      have hcb : c < (board.getD r []).length := by
        rw [hdims.2 r hrc.1]; exact hrc.2
      have hdims2 : dims (setMine board r c) rows cols := dims_setCell _ _ _ _ _ _ hdims
      obtain ⟨hodims, hocount, hoframe⟩ :=
        ih (setMine board r c) (mp + 1) out hdims2 hrestdraws (by omega) hrun
      have hget : getCell (setMine board r c) r c =
          { getCell board r c with isMine := true } := by
        rw [setMine, getCell_setCell_self _ _ _ _ hrb hcb]
      have hcc : cellCount (fun cell => cell.isMine) (setMine board r c) =
          cellCount (fun cell => cell.isMine) board + 1 := by
        have h0 := cellCount_setCell (fun cell => cell.isMine) board r c
          { getCell board r c with isMine := true } hrb hcb
        rw [if_neg (by simpa using h2), if_pos (by simp)] at h0
        rw [show setMine board r c = setCell board r c
          { getCell board r c with isMine := true } from rfl]
        omega
      refine ⟨hodims, by omega, fun r' c' => ?_⟩
      rcases hoframe r' c' with heq | ⟨hexcl, hnm, heq⟩
      · by_cases hsame : r' = r ∧ c' = c
        · obtain ⟨hh1, hh2⟩ := hsame; subst hh1; subst hh2
          refine Or.inr ⟨by simpa using h3, by simpa using h2, ?_⟩
          rw [heq, hget]
        · refine Or.inl ?_
          rw [heq, setMine, getCell_setCell_ne _ _ _ _ _ _ hsame]
      · have hsame : ¬(r' = r ∧ c' = c) := by
          rintro ⟨hh1, hh2⟩; subst hh1; subst hh2
          rw [hget] at hnm
          simp at hnm
        have hne : getCell (setMine board r c) r' c' = getCell board r' c' := by
          rw [setMine, getCell_setCell_ne _ _ _ _ _ _ hsame]
        rw [hne] at hnm heq
        exact Or.inr ⟨hexcl, hnm, heq⟩
    · -- minesPlaced ≥ mines: loop exits immediately
      simp only [Option.some_inj] at hrun
      subst hrun
      have : mp = mines := by omega
      exact ⟨hdims, by omega, fun r c => Or.inl rfl⟩

/-! ### Counting over index ranges -/

/-- Cells with `r < rows`, `c < cols` satisfying `p`, counted by indices
(the iteration pattern of `checkWin` and the neighbour pass). -/
def countIn (b : BoardData) (rows cols : Nat) (p : CellData → Bool) : Nat :=
  ((List.range rows).map (fun r =>
    ((List.range cols).filter (fun c => p (getCell b r c))).length)).sum

theorem countP_eq_range {α : Type} (p : α → Bool) (l : List α) (d : α) :
    l.countP p = ((List.range l.length).filter (fun i => p (l.getD i d))).length := by
  induction l with
  | nil => simp
  | cons a tl ih =>
    have hmap : ((List.range tl.length).map Nat.succ).filter
        (fun i => p ((a :: tl).getD i d)) =
        ((List.range tl.length).filter (fun i => p (tl.getD i d))).map Nat.succ := by
      rw [List.filter_map]
      congr 1
    rw [List.length_cons, List.range_succ_eq_map, List.filter_cons]
    simp only [List.getD_cons_zero, List.countP_cons]
    rw [hmap]
    by_cases hp : p a = true
    · rw [if_pos hp, if_pos hp]
      simp [ih]
    · rw [if_neg hp, if_neg hp]
      simp [ih]

theorem map_eq_range_map {α β : Type} (f : α → β) (l : List α) (d : α) :
    l.map f = (List.range l.length).map (fun i => f (l.getD i d)) := by
  induction l with
  | nil => simp
  | cons a tl ih =>
    rw [List.length_cons, List.range_succ_eq_map, List.map_cons, List.map_cons,
      List.map_map, List.getD_cons_zero]
    congr 1

theorem cellCount_eq_countIn (p : CellData → Bool) (b : BoardData)
    (rows cols : Nat) (hd : dims b rows cols) :
    cellCount p b = countIn b rows cols p := by
  rw [cellCount, map_eq_range_map (fun row => row.countP p) b [], hd.1, countIn]
  congr 1
  apply List.map_congr_left
  intro r hr
  have hrlt : r < rows := by simpa using hr
  rw [countP_eq_range (fun cell => p cell) (b.getD r []) defaultCell, hd.2 r hrlt]
  rfl

theorem countIn_congr (b b' : BoardData) (rows cols : Nat)
    (p q : CellData → Bool)
    (h : ∀ r, r < rows → ∀ c, c < cols → p (getCell b r c) = q (getCell b' r c)) :
    countIn b rows cols p = countIn b' rows cols q := by
  rw [countIn, countIn]
  congr 1
  apply List.map_congr_left
  intro r hr
  congr 1
  apply List.filter_congr
  intro c hc
  rw [h r (by simpa using hr) c (by simpa using hc)]

/-! ### `createEmptyBoard` facts -/

theorem dims_createEmptyBoard (rows cols : Nat) :
    dims (createEmptyBoard rows cols) rows cols := by
  constructor
  · simp [createEmptyBoard]
  · intro r hr
    rw [createEmptyBoard, getD_range_map, if_pos hr]
    simp

theorem getCell_createEmptyBoard (rows cols r c : Nat) (hr : r < rows)
    (hc : c < cols) :
    getCell (createEmptyBoard rows cols) r c =
      { row := r, col := c, isMine := false, status := CellStatus.hidden
        neighborMines := 0, exploded := false } := by
  rw [getCell, createEmptyBoard, getD_range_map, if_pos hr, getD_range_map,
    if_pos hc]

/-! ### `computeNeighbors` facts -/

theorem getD_oob {α : Type} (l : List α) (i : Nat) (d : α)
    (h : l.length ≤ i) : l.getD i d = d := by
  rw [List.getD_eq_getElem?_getD, List.getElem?_eq_none h]
  rfl

theorem getCell_oob (b : BoardData) (r c : Nat)
    (h : ¬(r < b.length ∧ c < (b.getD r []).length)) :
    getCell b r c = defaultCell := by
  by_cases h1 : r < b.length
  · have h2 : (b.getD r []).length ≤ c := by
      by_contra hcon
      exact h ⟨h1, by omega⟩
    rw [getCell, getD_oob _ _ _ h2]
  · rw [getCell, getD_oob b r [] (by omega)]
    rw [getD_oob ([] : List CellData) c defaultCell (by simp)]

theorem getCell_computeNeighbors (rows cols : Nat) (b : BoardData)
    (r c : Nat) :
    getCell (computeNeighbors rows cols b) r c =
      if r < b.length ∧ c < (b.getD r []).length then
        (if decide (r < rows) && decide (c < cols) && !(getCell b r c).isMine then
          { getCell b r c with
            neighborMines := countAdjacentMines b rows cols r c }
        else getCell b r c)
      else getCell b r c := by
  by_cases h1 : r < b.length
  · rw [getCell, computeNeighbors, getD_range_map, if_pos h1]
    by_cases h2 : c < (b.getD r []).length
    · rw [getD_range_map, if_pos h2,
        if_pos (show r < b.length ∧ c < (b.getD r []).length from ⟨h1, h2⟩)]
    · rw [getD_range_map, if_neg h2, if_neg (fun hh => h2 hh.2)]
      rw [getCell, getD_oob (b.getD r []) c defaultCell (by omega)]
  · rw [getCell, computeNeighbors, getD_range_map,
      if_neg (by simpa using h1), getD_oob ([] : List CellData) c defaultCell (by simp),
      if_neg (fun hh => h1 hh.1), getCell, getD_oob b r [] (by omega)]
    rw [getD_oob ([] : List CellData) c defaultCell (by simp)]

theorem computeNeighbors_preserve (rows cols : Nat) (b : BoardData)
    (r c : Nat) :
    (getCell (computeNeighbors rows cols b) r c).isMine =
      (getCell b r c).isMine ∧
    (getCell (computeNeighbors rows cols b) r c).status =
      (getCell b r c).status ∧
    (getCell (computeNeighbors rows cols b) r c).exploded =
      (getCell b r c).exploded := by
  rw [getCell_computeNeighbors]
  split_ifs <;> simp

theorem dims_computeNeighbors (rows cols : Nat) (b : BoardData)
    (hd : dims b rows cols) : dims (computeNeighbors rows cols b) rows cols := by
  constructor
  · simp [computeNeighbors, hd.1]
  · intro r hr
    rw [computeNeighbors, getD_range_map, if_pos (by rw [hd.1]; exact hr)]
    rw [List.length_map, List.length_range]
    exact hd.2 r hr

theorem countAdjacentMines_congr (b b' : BoardData) (rows cols r c : Nat)
    (h : ∀ i j, (getCell b' i j).isMine = (getCell b i j).isMine) :
    countAdjacentMines b' rows cols r c = countAdjacentMines b rows cols r c := by
  rw [countAdjacentMines, countAdjacentMines]
  congr 1
  apply List.filter_congr
  intro e he
  simp only [h]

theorem computeNeighbors_mine_neighborMines (rows cols : Nat) (b : BoardData)
    (r c : Nat) (hm : (getCell b r c).isMine = true) :
    (getCell (computeNeighbors rows cols b) r c).neighborMines =
      (getCell b r c).neighborMines := by
  rw [getCell_computeNeighbors]
  split_ifs with h1 h2
  · simp [hm] at h2
  · rfl
  · rfl

theorem computeNeighbors_nonMine_neighborMines (rows cols : Nat)
    (b : BoardData) (r c : Nat) (hd : dims b rows cols)
    (hr : r < rows) (hc : c < cols) (hm : (getCell b r c).isMine = false) :
    (getCell (computeNeighbors rows cols b) r c).neighborMines =
      countAdjacentMines b rows cols r c := by
  rw [getCell_computeNeighbors,
    if_pos ⟨by rw [hd.1]; exact hr, by rw [hd.2 r hr]; exact hc⟩,
    if_pos (by simp [hr, hc, hm])]

/-- On a rectangular mine-free-within-bounds board, every cell (including
the out-of-bounds default) is mine-free. -/
theorem mineFree_all (b : BoardData) (rows cols : Nat) (hd : dims b rows cols)
    (hmf : ∀ r, r < rows → ∀ c, c < cols → (getCell b r c).isMine = false) :
    ∀ r c, (getCell b r c).isMine = false := by
  intro r c
  by_cases h : r < b.length ∧ c < (b.getD r []).length
  · exact hmf r (by rw [← hd.1]; exact h.1) c
      (by rw [← hd.2 r (by rw [← hd.1]; exact h.1)]; exact h.2)
  · rw [getCell_oob _ _ _ h]
    rfl

theorem countIn_false (b : BoardData) (rows cols : Nat) :
    countIn b rows cols (fun _ => false) = 0 := by
  simp [countIn]

/-! ### Full initialization: placement plus neighbour computation -/

theorem initFull_spec (excl : Nat → Nat → Bool) (d : Difficulty)
    (b : BoardData) (draws : List (Nat × Nat)) (out : BoardData)
    (hd : dims b d.rows d.cols)
    (hmf : ∀ r, r < d.rows → ∀ c, c < d.cols → (getCell b r c).isMine = false)
    (hdraws : ∀ x ∈ draws, x.1 < d.rows ∧ x.2 < d.cols)
    (hrun : (placeMinesLoop excl d.mines b 0 draws).map
        (computeNeighbors d.rows d.cols) = some out) :
    dims out d.rows d.cols ∧
    cellCount (fun cell => cell.isMine) out = d.mines ∧
    (∀ r c, excl r c = true → (getCell out r c).isMine = false) := by
  obtain ⟨mid, hmid, hout⟩ := Option.map_eq_some'.mp hrun
  subst hout
  obtain ⟨hmdims, hmcount, hmframe⟩ :=
    placeMinesLoop_spec excl d.mines d.rows d.cols draws b 0 mid hd hdraws
      (Nat.zero_le _) hmid
  have hb0 : cellCount (fun cell => cell.isMine) b = 0 := by
    rw [cellCount_eq_countIn _ _ _ _ hd,
      countIn_congr b b d.rows d.cols _ (fun _ => false)
        (fun r hr c hc => by rw [hmf r hr c hc]),
      countIn_false]
  have hmidcount : cellCount (fun cell => cell.isMine) mid = d.mines := by omega
  have hodims : dims (computeNeighbors d.rows d.cols mid) d.rows d.cols :=
    dims_computeNeighbors _ _ _ hmdims
  refine ⟨hodims, ?_, ?_⟩
  · rw [cellCount_eq_countIn _ _ _ _ hodims,
      countIn_congr (computeNeighbors d.rows d.cols mid) mid d.rows d.cols _ _
        (fun r hr c hc => (computeNeighbors_preserve d.rows d.cols mid r c).1),
      ← cellCount_eq_countIn _ _ _ _ hmdims, hmidcount]
  · intro r c hexcl
    have hmid_rc : (getCell mid r c).isMine = false := by
      rcases hmframe r c with heq | ⟨hexcl2, _, _⟩
      · rw [heq]
        exact mineFree_all b d.rows d.cols hd hmf r c
      · rw [hexcl] at hexcl2
        cases hexcl2
    rw [(computeNeighbors_preserve d.rows d.cols mid r c).1, hmid_rc]

/-- C1: a successful run of `initializeBoardWithMines` (either revision)
from a rectangular mine-free board places exactly `mines` mines, never on
the first-clicked cell; the expanded-safe-zone revision also keeps all
in-bounds neighbours of the first click mine-free. -/
theorem initializeBoardWithMines_mineCount_safe
    (d : Difficulty) (b : BoardData) (fr fc : Nat) (draws : List (Nat × Nat))
    (outA outB : BoardData)
    (hd : dims b d.rows d.cols)
    (hmf : ∀ r, r < d.rows → ∀ c, c < d.cols → (getCell b r c).isMine = false)
    (hdraws : ∀ x ∈ draws, x.1 < d.rows ∧ x.2 < d.cols) :
    (initializeBoardWithMines b d fr fc draws = some outA →
      cellCount (fun cell => cell.isMine) outA = d.mines ∧
      (getCell outA fr fc).isMine = false) ∧
    (initializeBoardWithMinesExpanded b d fr fc draws = some outB →
      cellCount (fun cell => cell.isMine) outB = d.mines ∧
      (getCell outB fr fc).isMine = false ∧
      (∀ e ∈ DIRECTIONS, ∀ nr nc : Nat,
        (nr : Int) = (fr : Int) + e.1 → (nc : Int) = (fc : Int) + e.2 →
        (getCell outB nr nc).isMine = false)) := by
  constructor
  · intro hrun
    obtain ⟨_, hcount, hsafe⟩ := initFull_spec
      (fun r c => r == fr && c == fc) d b draws outA hd hmf hdraws hrun
    exact ⟨hcount, hsafe fr fc (by simp)⟩
  · intro hrun
    obtain ⟨_, hcount, hsafe⟩ := initFull_spec
      (fun r c => (r == fr && c == fc) || isNeighborOfFirstClick fr fc r c)
      d b draws outB hd hmf hdraws hrun
    refine ⟨hcount, hsafe fr fc (by simp), ?_⟩
    intro e he nr nc hnr hnc
    refine hsafe nr nc ?_
    have hnb : isNeighborOfFirstClick fr fc nr nc = true := by
      rw [isNeighborOfFirstClick, List.any_eq_true]
      exact ⟨e, he, by simp [hnr, hnc]⟩
    simp [hnb]

/-- Witness for C1 at a concrete 5×5 board with 2 mines. -/
theorem initializeBoardWithMines_mineCount_safe_witness :
    cellCount (fun cell => cell.isMine)
      (computeNeighbors 5 5 (setMine (setMine (createEmptyBoard 5 5) 0 0) 0 1)) = 2 ∧
    (getCell (computeNeighbors 5 5
      (setMine (setMine (createEmptyBoard 5 5) 0 0) 0 1)) 4 4).isMine = false := by
  have h := (initializeBoardWithMines_mineCount_safe
    { name := "w", rows := 5, cols := 5, mines := 2 }
    (createEmptyBoard 5 5) 4 4 [(0, 0), (0, 1)]
    (computeNeighbors 5 5 (setMine (setMine (createEmptyBoard 5 5) 0 0) 0 1))
    (computeNeighbors 5 5 (setMine (setMine (createEmptyBoard 5 5) 0 0) 0 1))
    (by decide) (by decide) (by decide)).1 (by decide)
  exact h

/-! ### C5: neighbour counts -/

theorem computeNeighbors_spec (rows cols : Nat) (mid : BoardData)
    (hd : dims mid rows cols) :
    ∀ r, r < rows → ∀ c, c < cols →
      ((getCell (computeNeighbors rows cols mid) r c).isMine = false →
        (getCell (computeNeighbors rows cols mid) r c).neighborMines =
          countAdjacentMines (computeNeighbors rows cols mid) rows cols r c) ∧
      ((getCell (computeNeighbors rows cols mid) r c).isMine = true →
        (getCell (computeNeighbors rows cols mid) r c).neighborMines =
          (getCell mid r c).neighborMines) := by
  intro r hr c hc
  constructor
  · intro hnm
    have hmid : (getCell mid r c).isMine = false := by
      rw [← (computeNeighbors_preserve rows cols mid r c).1]
      exact hnm
    rw [computeNeighbors_nonMine_neighborMines rows cols mid r c hd hr hc hmid,
      countAdjacentMines_congr mid (computeNeighbors rows cols mid) rows cols r c
        (fun i j => (computeNeighbors_preserve rows cols mid i j).1)]
  · intro hm
    have hmid : (getCell mid r c).isMine = true := by
      rw [← (computeNeighbors_preserve rows cols mid r c).1]
      exact hm
    exact computeNeighbors_mine_neighborMines rows cols mid r c hmid

/-- C5 counterexample: after `initializeBoardWithMines` places adjacent
mines at (0,0) and (0,1) on a 5×5 board (first click far away at (4,4)),
the mine cell (0,0) reports `neighborMines = 0` while it actually has one
in-bounds Moore neighbour that is a mine — the neighbour pass skips mine
cells, so "every cell" is false. -/
theorem neighborMines_mine_cell_stale :
    (initializeBoardWithMines (createEmptyBoard 5 5)
        { name := "w", rows := 5, cols := 5, mines := 2 } 4 4
        [(0, 0), (0, 1)]).map
      (fun out => ((getCell out 0 0).isMine, (getCell out 0 0).neighborMines,
        countAdjacentMines out 5 5 0 0)) = some (true, 0, 1) := by
  decide

/-- C5 amended: after a successful `initializeBoardWithMines` run (either
revision), every in-bounds non-mine cell's `neighborMines` equals its exact
in-bounds Moore adjacent-mine count; mine cells keep the `neighborMines`
value of the input board (0 for a board built by `createEmptyBoard`). -/
theorem initializeBoardWithMines_neighborMines_correct
    (d : Difficulty) (b : BoardData) (fr fc : Nat) (draws : List (Nat × Nat))
    (out : BoardData) (hd : dims b d.rows d.cols)
    (hdraws : ∀ x ∈ draws, x.1 < d.rows ∧ x.2 < d.cols)
    (hrun : initializeBoardWithMines b d fr fc draws = some out ∨
      initializeBoardWithMinesExpanded b d fr fc draws = some out) :
    ∀ r, r < d.rows → ∀ c, c < d.cols →
      ((getCell out r c).isMine = false →
        (getCell out r c).neighborMines =
          countAdjacentMines out d.rows d.cols r c) ∧
      ((getCell out r c).isMine = true →
        (getCell out r c).neighborMines = (getCell b r c).neighborMines) := by
  have hmain : ∀ (excl : Nat → Nat → Bool),
      (placeMinesLoop excl d.mines b 0 draws).map
        (computeNeighbors d.rows d.cols) = some out →
      ∀ r, r < d.rows → ∀ c, c < d.cols →
        ((getCell out r c).isMine = false →
          (getCell out r c).neighborMines =
            countAdjacentMines out d.rows d.cols r c) ∧
        ((getCell out r c).isMine = true →
          (getCell out r c).neighborMines = (getCell b r c).neighborMines) := by
    intro excl hexec r hr c hc
    obtain ⟨mid, hmid, hout⟩ := Option.map_eq_some'.mp hexec
    subst hout
    obtain ⟨hmdims, _, hmframe⟩ :=
      placeMinesLoop_spec excl d.mines d.rows d.cols draws b 0 mid hd hdraws
        (Nat.zero_le _) hmid
    obtain ⟨hsafe, hmine⟩ := computeNeighbors_spec d.rows d.cols mid hmdims r hr c hc
    refine ⟨hsafe, fun hm => ?_⟩
    rw [hmine hm]
    rcases hmframe r c with heq | ⟨_, _, heq⟩ <;> rw [heq]
  rcases hrun with hrun | hrun
  · exact hmain _ hrun
  · exact hmain _ hrun

/-- Witness for the amended C5 on the concrete counterexample board:
non-mine cell (0,2) gets its exact count and mine cell (0,0) keeps the
input value. -/
theorem initializeBoardWithMines_neighborMines_correct_witness :
    ((getCell (computeNeighbors 5 5
        (setMine (setMine (createEmptyBoard 5 5) 0 0) 0 1)) 0 2).neighborMines =
      countAdjacentMines (computeNeighbors 5 5
        (setMine (setMine (createEmptyBoard 5 5) 0 0) 0 1)) 5 5 0 2) ∧
    ((getCell (computeNeighbors 5 5
        (setMine (setMine (createEmptyBoard 5 5) 0 0) 0 1)) 0 0).neighborMines =
      (getCell (createEmptyBoard 5 5) 0 0).neighborMines) := by
  have h := initializeBoardWithMines_neighborMines_correct
    { name := "w", rows := 5, cols := 5, mines := 2 }
    (createEmptyBoard 5 5) 4 4 [(0, 0), (0, 1)]
    (computeNeighbors 5 5 (setMine (setMine (createEmptyBoard 5 5) 0 0) 0 1))
    (by decide) (by decide) (Or.inl (by decide))
  exact ⟨(h 0 (by decide) 2 (by decide)).1 (by decide),
    (h 0 (by decide) 0 (by decide)).2 (by decide)⟩

/-! ### C4: termination of the rejection-sampling placement loop -/

theorem length_filter_split {α : Type} (p : α → Bool) (l : List α) :
    (l.filter p).length + (l.filter (fun x => !p x)).length = l.length := by
  induction l with
  | nil => simp
  | cons a tl ih =>
    rw [List.filter_cons, List.filter_cons]
    by_cases hp : p a = true
    · rw [if_pos hp, if_neg (by simp [hp])]
      simp only [List.length_cons]
      omega
    · rw [if_neg hp, if_pos (by simp [hp])]
      simp only [List.length_cons]
      omega

theorem length_filter_le_of_subset {α : Type} (l z : List α) (p : α → Bool)
    (hnd : l.Nodup) (hsub : l.filter p ⊆ z) :
    (l.filter p).length ≤ z.length :=
  (List.subperm_of_subset (hnd.filter p) hsub).length_le

/-- If the remaining draw list (with no duplicates, all in bounds) still
holds enough placeable cells, the placement loop finishes. -/
theorem placeMinesLoop_total (excl : Nat → Nat → Bool) (mines rows cols : Nat) :
    ∀ (ds : List (Nat × Nat)) (board : BoardData) (mp : Nat),
      dims board rows cols →
      (∀ x ∈ ds, x.1 < rows ∧ x.2 < cols) →
      ds.Nodup →
      mines ≤ mp + (ds.filter (fun x =>
        !(getCell board x.1 x.2).isMine && !excl x.1 x.2)).length →
      (placeMinesLoop excl mines board mp ds).isSome = true := by
  intro ds
  induction ds with
  | nil =>
    intro board mp hdims hin hnd hcnt
    simp only [List.filter_nil, List.length_nil] at hcnt
    simp only [placeMinesLoop]
    rw [if_neg (by omega)]
    rfl
  | cons hd rest ih =>
    intro board mp hdims hin hnd hcnt
    obtain ⟨r, c⟩ := hd
    simp only [placeMinesLoop]
    by_cases h1 : mp < mines
    · rw [List.filter_cons] at hcnt
      by_cases h2 : (getCell board r c).isMine = true
      · rw [if_pos h1, if_pos h2]
        rw [if_neg (by simp [h2])] at hcnt
        exact ih board mp hdims (fun x hx => hin x (List.mem_cons_of_mem _ hx))
          hnd.of_cons hcnt
      · by_cases h3 : excl r c = true
        · rw [if_pos h1, if_neg h2, if_pos h3]
          rw [if_neg (by simp [h2, h3])] at hcnt
          exact ih board mp hdims (fun x hx => hin x (List.mem_cons_of_mem _ hx))
            hnd.of_cons hcnt
        · rw [if_pos h1, if_neg h2, if_neg h3]
          rw [if_pos (by simp [h2, h3])] at hcnt
          simp only [List.length_cons] at hcnt
          have hrb : (r, c).1 < rows ∧ (r, c).2 < cols :=
            hin (r, c) (List.mem_cons_self _ _)
          have hnotmem : (r, c) ∉ rest := (List.nodup_cons.mp hnd).1
          have hfilter_eq : rest.filter (fun x =>
              !(getCell (setMine board r c) x.1 x.2).isMine && !excl x.1 x.2) =
              rest.filter (fun x =>
              !(getCell board x.1 x.2).isMine && !excl x.1 x.2) := by
            apply List.filter_congr
            intro x hx
            have hne : ¬(x.1 = r ∧ x.2 = c) := by
              rintro ⟨ha, hb⟩
              apply hnotmem
              have : x = (r, c) := Prod.ext ha hb
              rw [← this]
              exact hx
            have : getCell (setMine board r c) x.1 x.2 = getCell board x.1 x.2 := by
              rw [setMine, getCell_setCell_ne _ _ _ _ _ _ hne]
            rw [this]
          apply ih (setMine board r c) (mp + 1) (dims_setCell _ _ _ _ _ _ hdims)
            (fun x hx => hin x (List.mem_cons_of_mem _ hx)) hnd.of_cons
          rw [hfilter_eq]
          omega
    · rw [if_neg h1]
      rfl


/-- Generic termination of a full placement run: if the excluded zone is
covered by a list `z` and `mines ≤ rows*cols − |z|`, then proposing every
cell once is enough for the loop to finish. -/
theorem init_total (excl : Nat → Nat → Bool) (mines rows cols : Nat)
    (b : BoardData) (z : List (Nat × Nat))
    (hd : dims b rows cols)
    (hmf : ∀ r, r < rows → ∀ c, c < cols → (getCell b r c).isMine = false)
    (hzone : ∀ x : Nat × Nat, excl x.1 x.2 = true → x ∈ z)
    (hmines : mines ≤ rows * cols - z.length) :
    (placeMinesLoop excl mines b 0
      (List.product (List.range rows) (List.range cols))).isSome = true := by
  have hin : ∀ x ∈ List.product (List.range rows) (List.range cols),
      x.1 < rows ∧ x.2 < cols := by
    intro x hx
    obtain ⟨a, bb⟩ := x
    have hab := List.pair_mem_product.mp hx
    exact ⟨by simpa using hab.1, by simpa using hab.2⟩
  have hnd : (List.product (List.range rows) (List.range cols)).Nodup :=
    (List.nodup_range rows).product (List.nodup_range cols)
  apply placeMinesLoop_total excl mines rows cols _ b 0 hd hin hnd
  have hfeq : (List.product (List.range rows) (List.range cols)).filter
      (fun x => !(getCell b x.1 x.2).isMine && !excl x.1 x.2) =
      (List.product (List.range rows) (List.range cols)).filter
      (fun x => !excl x.1 x.2) := by
    apply List.filter_congr
    intro x hx
    obtain ⟨a, bb⟩ := x
    have hab := List.pair_mem_product.mp hx
    rw [hmf a (by simpa using hab.1) bb (by simpa using hab.2)]
    simp
  have hsplit := length_filter_split (fun y : Nat × Nat => excl y.1 y.2)
    (List.product (List.range rows) (List.range cols))
  have hle := length_filter_le_of_subset
    (List.product (List.range rows) (List.range cols)) z
    (fun y : Nat × Nat => excl y.1 y.2) hnd
    (fun x hx => hzone x (List.mem_filter.mp hx).2)
  have hlen : (List.product (List.range rows) (List.range cols)).length =
      rows * cols := by
    show ((List.range rows) ×ˢ (List.range cols)).length = rows * cols
    rw [List.length_product, List.length_range, List.length_range]
  rw [hfeq]
  omega

/-- C4 amended: with every cell proposed once (and the board mine-free and
rectangular), the placement loop of the first-click-only revision
terminates whenever `mines ≤ rows*cols − 1`, and the expanded-safe-zone
revision terminates whenever `mines ≤ rows*cols − 9` (the zone holds at
most 9 cells).  The `mines ≤ rows*cols − 1` precondition of the claim is
not sufficient for the expanded revision (see the counterexample). -/
theorem placeMines_terminates_with_enough_free_cells
    (d : Difficulty) (b : BoardData) (fr fc : Nat)
    (hd : dims b d.rows d.cols)
    (hmf : ∀ r, r < d.rows → ∀ c, c < d.cols → (getCell b r c).isMine = false) :
    (d.mines ≤ d.rows * d.cols - 1 →
      (initializeBoardWithMines b d fr fc
        (List.product (List.range d.rows) (List.range d.cols))).isSome = true) ∧
    (d.mines ≤ d.rows * d.cols - 9 →
      (initializeBoardWithMinesExpanded b d fr fc
        (List.product (List.range d.rows) (List.range d.cols))).isSome = true) := by
  constructor
  · intro hmines
    have htotal := init_total (fun r c => r == fr && c == fc) d.mines d.rows
      d.cols b [(fr, fc)] hd hmf ?_ (by simpa using hmines)
    · simp only [initializeBoardWithMines]
      cases hres : placeMinesLoop (fun r c => r == fr && c == fc) d.mines b 0
          (List.product (List.range d.rows) (List.range d.cols)) with
      | none => rw [hres] at htotal; simp at htotal
      | some v => rfl
    · intro x hx
      obtain ⟨a, bb⟩ := x
      simp only [Bool.and_eq_true, beq_iff_eq] at hx
      rw [hx.1, hx.2]
      exact List.mem_cons_self _ _
  · intro hmines
    have htotal := init_total
      (fun r c => (r == fr && c == fc) || isNeighborOfFirstClick fr fc r c)
      d.mines d.rows d.cols b
      ((fr, fc) :: DIRECTIONS.map (fun e =>
        (((fr : Int) + e.1).toNat, ((fc : Int) + e.2).toNat)))
      hd hmf ?_ ?_
    · simp only [initializeBoardWithMinesExpanded]
      cases hres : placeMinesLoop
          (fun r c => (r == fr && c == fc) || isNeighborOfFirstClick fr fc r c)
          d.mines b 0
          (List.product (List.range d.rows) (List.range d.cols)) with
      | none => rw [hres] at htotal; simp at htotal
      | some v => rfl
    · intro x hx
      obtain ⟨a, bb⟩ := x
      simp only [Bool.or_eq_true, Bool.and_eq_true, beq_iff_eq] at hx
      rcases hx with ⟨ha, hb⟩ | hnb
      · rw [ha, hb]
        exact List.mem_cons_self _ _
      · rw [isNeighborOfFirstClick, List.any_eq_true] at hnb
        obtain ⟨e, he, hcond⟩ := hnb
        simp only [Bool.and_eq_true, decide_eq_true_eq] at hcond
        apply List.mem_cons_of_mem
        rw [List.mem_map]
        refine ⟨e, he, ?_⟩
        have h1 : ((fr : Int) + e.1).toNat = a := by omega
        have h2 : ((fc : Int) + e.2).toNat = bb := by omega
        rw [h1, h2]
    · have hz9 : ((fr, fc) :: DIRECTIONS.map (fun e =>
          (((fr : Int) + e.1).toNat, ((fc : Int) + e.2).toNat))).length = 9 := by
        simp [DIRECTIONS]
      rw [hz9]
      exact hmines

/-- C4 counterexample: the expanded-safe-zone revision with a 5×5 board,
`mines = 17 ≤ rows*cols − 1 = 24` and first click at the centre (2,2)
excludes 9 cells, leaving only 16 placeable cells; even a draw stream that
proposes every cell twice leaves the loop still running (`none`), so the
claimed precondition does not guarantee termination. -/
theorem placeMines_expanded_nontermination :
    initializeBoardWithMinesExpanded (createEmptyBoard 5 5)
      { name := "w", rows := 5, cols := 5, mines := 17 } 2 2
      (List.product (List.range 5) (List.range 5) ++
        List.product (List.range 5) (List.range 5)) = none := by
  decide

/-- Witness for the amended C4 on a concrete 5×5 board with 3 mines. -/
theorem placeMines_terminates_with_enough_free_cells_witness :
    (initializeBoardWithMines (createEmptyBoard 5 5)
      { name := "w", rows := 5, cols := 5, mines := 3 } 0 0
      (List.product (List.range 5) (List.range 5))).isSome = true ∧
    (initializeBoardWithMinesExpanded (createEmptyBoard 5 5)
      { name := "w", rows := 5, cols := 5, mines := 3 } 0 0
      (List.product (List.range 5) (List.range 5))).isSome = true := by
  have h := placeMines_terminates_with_enough_free_cells
    { name := "w", rows := 5, cols := 5, mines := 3 }
    (createEmptyBoard 5 5) 0 0 (by decide) (by decide)
  exact ⟨h.1 (by decide), h.2 (by decide)⟩

/-! ### BFS frame property -/

/-- The only board change the BFS makes: some hidden cells become revealed,
shape and all other fields untouched. -/
def bfsFrame (b b' : BoardData) : Prop :=
  b'.length = b.length ∧
  (∀ i, (b'.getD i []).length = (b.getD i []).length) ∧
  (∀ r c, getCell b' r c = getCell b r c ∨
    ((getCell b r c).status = CellStatus.hidden ∧
      getCell b' r c = { getCell b r c with status := CellStatus.revealed }))

theorem bfsFrame_refl (b : BoardData) : bfsFrame b b :=
  ⟨rfl, fun _ => rfl, fun _ _ => Or.inl rfl⟩

theorem bfsFrame_trans (a b c : BoardData) (h1 : bfsFrame a b)
    (h2 : bfsFrame b c) : bfsFrame a c := by
  refine ⟨h2.1.trans h1.1, fun i => (h2.2.1 i).trans (h1.2.1 i), fun r cc => ?_⟩
  rcases h1.2.2 r cc with he1 | ⟨hh1, he1⟩
  · rcases h2.2.2 r cc with he2 | ⟨hh2, he2⟩
    · exact Or.inl (he2.trans he1)
    · rw [he1] at hh2 he2
      exact Or.inr ⟨hh2, he2⟩
  · rcases h2.2.2 r cc with he2 | ⟨hh2, he2⟩
    · exact Or.inr ⟨hh1, he2.trans he1⟩
    · rw [he1] at hh2
      simp at hh2
  
theorem bfsFrame_revealAt (b : BoardData) (r c : Nat)
    (hr : r < b.length) (hc : c < (b.getD r []).length)
    (hstat : (getCell b r c).status = CellStatus.hidden) :
    bfsFrame b (revealAt b r c) := by
  refine ⟨length_setCell _ _ _ _, fun i => rowLen_setCell _ _ _ _ _, ?_⟩
  intro r' c'
  by_cases hsame : r' = r ∧ c' = c
  · obtain ⟨h1, h2⟩ := hsame; subst h1; subst h2
    rw [revealAt, getCell_setCell_self _ _ _ _ hr hc]
    exact Or.inr ⟨hstat, rfl⟩
  · rw [revealAt, getCell_setCell_ne _ _ _ _ _ _ hsame]
    exact Or.inl rfl

theorem bfsLoop_frame : ∀ (fuel : Nat) (b : BoardData)
    (q : List (Nat × Nat)) (b' : BoardData),
    bfsLoop fuel b q = some b' → bfsFrame b b' := by
  intro fuel
  induction fuel with
  | zero =>
    intro b q b' hrun
    match q with
    | [] =>
      simp only [bfsLoop, Option.some_inj] at hrun
      subst hrun
      exact bfsFrame_refl b
    | x :: rest =>
      simp only [bfsLoop] at hrun
      cases hrun
  | succ n ihn =>
    intro b q b' hrun
    match q with
    | [] =>
      simp only [bfsLoop, Option.some_inj] at hrun
      subst hrun
      exact bfsFrame_refl b
    | (r, c) :: rest =>
      simp only [bfsLoop] at hrun
      split_ifs at hrun with hrc hstat hzero
      · exact bfsFrame_trans _ _ _
          (bfsFrame_revealAt b r c hrc.1 hrc.2 hstat) (ihn _ _ _ hrun)
      · exact bfsFrame_trans _ _ _
          (bfsFrame_revealAt b r c hrc.1 hrc.2 hstat) (ihn _ _ _ hrun)
      · exact ihn _ _ _ hrun

theorem bfsLoop_frame_of_some (fuel : Nat) (b : BoardData)
    (q : List (Nat × Nat)) (b' : BoardData)
    (hrun : bfsLoop fuel b q = some b') : bfsFrame b b' :=
  bfsLoop_frame fuel b q b' hrun
/-! ### BFS: totality on rectangular boards with an in-bounds queue -/

theorem boardCols_dims (b : BoardData) (rows cols : Nat)
    (hd : dims b rows cols) (hrows : 0 < rows) : boardCols b = cols := by
  rw [boardCols]
  exact hd.2 0 hrows

theorem pushNeighbors_bounds (b : BoardData) (r c : Nat) (y : Nat × Nat)
    (hy : y ∈ pushNeighbors b r c) :
    y.1 < b.length ∧ y.2 < boardCols b ∧
    (getCell b y.1 y.2).status = CellStatus.hidden := by
  rw [pushNeighbors, List.mem_filterMap] at hy
  obtain ⟨e, he, hcond⟩ := hy
  dsimp only at hcond
  split_ifs at hcond with hc
  obtain ⟨h1, h2, h3, h4, h5⟩ := hc
  cases hcond
  refine ⟨by omega, by omega, h5⟩

theorem dims_revealAt (b : BoardData) (rows cols r c : Nat)
    (hd : dims b rows cols) : dims (revealAt b r c) rows cols :=
  dims_setCell b rows cols r c _ hd

theorem bfsLoop_isSome (rows cols : Nat) : ∀ (fuel : Nat) (b : BoardData)
    (q : List (Nat × Nat)), hiddenCount b * 9 + q.length <= fuel →
    dims b rows cols →
    (∀ x ∈ q, x.1 < rows ∧ x.2 < cols) →
    (bfsLoop fuel b q).isSome = true := by
  intro fuel
  induction fuel with
  | zero =>
    intro b q hm hd hq
    have hqnil : q = [] := List.eq_nil_of_length_eq_zero (by omega)
    subst hqnil
    simp [bfsLoop]
  | succ n ihn =>
    intro b q hm hd hq
    match q with
    | [] => simp [bfsLoop]
    | (r, c) :: rest =>
      have hrcb := hq (r, c) (List.mem_cons_self _ _)
      have hrb : r < b.length := by rw [hd.1]; exact hrcb.1
      have hcb : c < (b.getD r []).length := by
        rw [hd.2 r hrcb.1]; exact hrcb.2
      have hrestq : ∀ x ∈ rest, x.1 < rows ∧ x.2 < cols :=
        fun x hx => hq x (List.mem_cons_of_mem _ hx)
      simp only [bfsLoop]
      rw [if_pos ⟨hrb, hcb⟩]
      by_cases hstat : (getCell b r c).status = CellStatus.hidden
      · rw [if_pos hstat]
        have hdec := hiddenCount_revealAt b r c hrb hcb hstat
        have hd2 : dims (revealAt b r c) rows cols :=
          dims_revealAt b rows cols r c hd
        by_cases hzero : (getCell b r c).neighborMines = 0
        · rw [if_pos hzero]
          have hp := pushNeighbors_length_le (revealAt b r c) r c
          apply ihn _ _ ?_ hd2
          · intro x hx
            rcases List.mem_append.mp hx with hx | hx
            · exact hrestq x hx
            · have hb := pushNeighbors_bounds _ _ _ _ hx
              have hlen : (revealAt b r c).length = rows := hd2.1
              have hcols : boardCols (revealAt b r c) = cols :=
                boardCols_dims _ _ _ hd2 (by omega)
              rw [hlen] at hb
              rw [hcols] at hb
              exact ⟨hb.1, hb.2.1⟩
          · simp only [List.length_append, List.length_cons] at hm ⊢
            omega
        · rw [if_neg hzero]
          apply ihn _ _ ?_ hd2 hrestq
          simp only [List.length_cons] at hm ⊢
          omega
      · rw [if_neg hstat]
        apply ihn _ _ ?_ hd hrestq
        simp only [List.length_cons] at hm ⊢
        omega
/-! ### BFS: processed queue entries end up revealed -/

theorem bfsFrame_fields (b b' : BoardData) (h : bfsFrame b b') (r c : Nat) :
    (getCell b' r c).isMine = (getCell b r c).isMine ∧
    (getCell b' r c).neighborMines = (getCell b r c).neighborMines ∧
    (getCell b' r c).exploded = (getCell b r c).exploded := by
  rcases h.2.2 r c with he | ⟨_, he⟩ <;> rw [he] <;> exact ⟨rfl, rfl, rfl⟩

theorem bfsFrame_mono_revealed (b b' : BoardData) (h : bfsFrame b b')
    (r c : Nat) (hrev : (getCell b r c).status = CellStatus.revealed) :
    (getCell b' r c).status = CellStatus.revealed := by
  rcases h.2.2 r c with he | ⟨hh, he⟩
  · rw [he]; exact hrev
  · rw [hrev] at hh; cases hh

theorem bfsFrame_noFlags (b b' : BoardData) (h : bfsFrame b b')
    (hnf : ∀ r c, (getCell b r c).status ≠ CellStatus.flagged) :
    ∀ r c, (getCell b' r c).status ≠ CellStatus.flagged := by
  intro r c
  rcases h.2.2 r c with he | ⟨hh, he⟩
  · rw [he]; exact hnf r c
  · rw [he]; simp

theorem revealAt_noFlags (b : BoardData) (r c : Nat)
    (hr : r < b.length) (hc : c < (b.getD r []).length)
    (hstat : (getCell b r c).status = CellStatus.hidden)
    (hnf : ∀ i j, (getCell b i j).status ≠ CellStatus.flagged) :
    ∀ i j, (getCell (revealAt b r c) i j).status ≠ CellStatus.flagged :=
  bfsFrame_noFlags b _ (bfsFrame_revealAt b r c hr hc hstat) hnf

theorem bfsLoop_processed : ∀ (fuel : Nat) (b : BoardData)
    (q : List (Nat × Nat)) (b' : BoardData),
    (∀ r c, (getCell b r c).status ≠ CellStatus.flagged) →
    bfsLoop fuel b q = some b' →
    ∀ x ∈ q, x.1 < b.length → x.2 < (b.getD x.1 []).length →
      (getCell b' x.1 x.2).status = CellStatus.revealed := by
  intro fuel
  induction fuel with
  | zero =>
    intro b q b' hnf hrun x hx _ _
    match q, hx with
    | (r, c) :: rest, hx =>
      simp only [bfsLoop] at hrun
      cases hrun
  | succ n ihn =>
    intro b q b' hnf hrun x hx hxr hxc
    match q, hx with
    | (r, c) :: rest, hx =>
      simp only [bfsLoop] at hrun
      split_ifs at hrun with hrc hstat hzero
      · -- reveal, push neighbours
        have hstep := bfsFrame_revealAt b r c hrc.1 hrc.2 hstat
        have hnf2 := bfsFrame_noFlags b _ hstep hnf
        rcases List.mem_cons.mp hx with hxeq | hxmem
        · subst hxeq
          refine bfsFrame_mono_revealed _ _ (bfsLoop_frame_of_some _ _ _ _ hrun)
            _ _ ?_
          rw [revealAt, getCell_setCell_self _ _ _ _ hrc.1 hrc.2]
        · refine ihn _ _ _ hnf2 hrun x (List.mem_append_left _ hxmem) ?_ ?_
          · rw [hstep.1]
            exact hxr
          · rw [hstep.2.1 x.1]
            exact hxc
      · -- reveal, no push
        have hstep := bfsFrame_revealAt b r c hrc.1 hrc.2 hstat
        have hnf2 := bfsFrame_noFlags b _ hstep hnf
        rcases List.mem_cons.mp hx with hxeq | hxmem
        · subst hxeq
          refine bfsFrame_mono_revealed _ _ (bfsLoop_frame_of_some _ _ _ _ hrun)
            _ _ ?_
          rw [revealAt, getCell_setCell_self _ _ _ _ hrc.1 hrc.2]
        · refine ihn _ _ _ hnf2 hrun x hxmem ?_ ?_
          · rw [hstep.1]
            exact hxr
          · rw [hstep.2.1 x.1]
            exact hxc
      · -- skip: the dequeued cell is already revealed (no flags)
        rcases List.mem_cons.mp hx with hxeq | hxmem
        · subst hxeq
          have hrev : (getCell b r c).status = CellStatus.revealed := by
            cases hcase : (getCell b r c).status with
            | hidden => exact absurd hcase hstat
            | revealed => rfl
            | flagged => exact absurd hcase (hnf r c)
          exact bfsFrame_mono_revealed _ _ (bfsLoop_frame_of_some _ _ _ _ hrun)
            _ _ hrev
        · exact ihn _ _ _ hnf hrun x hxmem hxr hxc
/-! ### BFS: closure — a revealed cell's in-bounds neighbours end up
revealed or queued -/

/-- Every revealed cell has each in-bounds Moore neighbour either revealed
or still waiting in the queue. -/
def bfsClosed (b : BoardData) (q : List (Nat × Nat)) : Prop :=
  ∀ r c, r < b.length → c < boardCols b →
    (getCell b r c).status = CellStatus.revealed →
    ∀ e ∈ DIRECTIONS, ∀ nr nc : Nat,
      (nr : Int) = (r : Int) + e.1 → (nc : Int) = (c : Int) + e.2 →
      nr < b.length → nc < boardCols b →
      ((getCell b nr nc).status = CellStatus.revealed ∨ (nr, nc) ∈ q)

theorem mem_pushNeighbors (b : BoardData) (r c nr nc : Nat)
    (e : Int × Int) (he : e ∈ DIRECTIONS)
    (hnr : (nr : Int) = (r : Int) + e.1) (hnc : (nc : Int) = (c : Int) + e.2)
    (hnrb : nr < b.length) (hncb : nc < boardCols b)
    (hhd : (getCell b nr nc).status = CellStatus.hidden) :
    (nr, nc) ∈ pushNeighbors b r c := by
  rw [pushNeighbors, List.mem_filterMap]
  refine ⟨e, he, ?_⟩
  dsimp only
  have h1 : ((r : Int) + e.1).toNat = nr := by omega
  have h2 : ((c : Int) + e.2).toNat = nc := by omega
  rw [if_pos ?_]
  · rw [h1, h2]
  · refine ⟨by omega, by omega, by omega, by omega, ?_⟩
    rw [h1, h2]
    exact hhd

theorem bfsLoop_closed : ∀ (fuel : Nat) (b : BoardData)
    (q : List (Nat × Nat)) (b' : BoardData),
    (∀ r c, (getCell b r c).status ≠ CellStatus.flagged) →
    (∀ r c, r < b.length → c < (b.getD r []).length →
      (getCell b r c).neighborMines = 0) →
    bfsClosed b q →
    bfsLoop fuel b q = some b' →
    bfsClosed b' [] := by
  intro fuel
  induction fuel with
  | zero =>
    intro b q b' hnf hz hcl hrun
    match q with
    | [] =>
      simp only [bfsLoop, Option.some_inj] at hrun
      subst hrun
      exact hcl
    | x :: rest =>
      simp only [bfsLoop] at hrun
      cases hrun
  | succ n ihn =>
    intro b q b' hnf hz hcl hrun
    match q with
    | [] =>
      simp only [bfsLoop, Option.some_inj] at hrun
      subst hrun
      exact hcl
    | (r, c) :: rest =>
      simp only [bfsLoop] at hrun
      split_ifs at hrun with hrc hstat hzero
      · -- reveal (r, c), push hidden neighbours
        have hstep := bfsFrame_revealAt b r c hrc.1 hrc.2 hstat
        have hself : getCell (revealAt b r c) r c =
            { getCell b r c with status := CellStatus.revealed } := by
          rw [revealAt, getCell_setCell_self _ _ _ _ hrc.1 hrc.2]
        refine ihn _ _ _ (bfsFrame_noFlags b _ hstep hnf) ?_ ?_ hrun
        · intro i j hi hj
          rw [(bfsFrame_fields b _ hstep i j).2.1]
          refine hz i j ?_ ?_
          · rw [← hstep.1]; exact hi
          · rw [← hstep.2.1 i]; exact hj
        · -- closure is preserved by the reveal-and-push step
          intro yr yc hyr hyc hyrev e he nr nc hnr hnc hnrb hncb
          have hlen : (revealAt b r c).length = b.length := hstep.1
          have hcols : boardCols (revealAt b r c) = boardCols b := hstep.2.1 0
          by_cases hy : yr = r ∧ yc = c
          · have h1 : yr = r := hy.1
            have h2 : yc = c := hy.2
            rw [h1] at hnr
            rw [h2] at hnc
            by_cases hhd : (getCell (revealAt b r c) nr nc).status =
                CellStatus.hidden
            · exact Or.inr (List.mem_append_right _
                (mem_pushNeighbors _ _ _ _ _ e he hnr hnc hnrb hncb hhd))
            · refine Or.inl ?_
              cases hcase : (getCell (revealAt b r c) nr nc).status with
              | hidden => exact absurd hcase hhd
              | revealed => rfl
              | flagged =>
                exact absurd hcase (bfsFrame_noFlags b _ hstep hnf nr nc)
          · have hold : getCell (revealAt b r c) yr yc = getCell b yr yc := by
              rw [revealAt, getCell_setCell_ne _ _ _ _ _ _ hy]
            rw [hold] at hyrev
            have hres := hcl yr yc (by rw [← hlen]; exact hyr)
              (by rw [← hcols]; exact hyc) hyrev e he nr nc hnr hnc
              (by rw [← hlen]; exact hnrb) (by rw [← hcols]; exact hncb)
            rcases hres with hres | hres
            · exact Or.inl (bfsFrame_mono_revealed b _ hstep nr nc hres)
            · rcases List.mem_cons.mp hres with heq | hmem
              · refine Or.inl ?_
                have hps : nr = r ∧ nc = c := by
                  constructor <;> [exact congrArg Prod.fst heq;
                    exact congrArg Prod.snd heq]
                rw [hps.1, hps.2, hself]
              · exact Or.inr (List.mem_append_left _ hmem)
      · -- a numbered cell cannot occur on an all-zero board
        exact absurd (hz r c hrc.1 hrc.2) hzero
      · -- skip an already-revealed cell
        refine ihn _ _ _ hnf hz ?_ hrun
        intro yr yc hyr hyc hyrev e he nr nc hnr hnc hnrb hncb
        rcases hcl yr yc hyr hyc hyrev e he nr nc hnr hnc hnrb hncb with
          hres | hres
        · exact Or.inl hres
        · rcases List.mem_cons.mp hres with heq | hmem
          · refine Or.inl ?_
            have hps : nr = r ∧ nc = c := by
              constructor <;> [exact congrArg Prod.fst heq;
                exact congrArg Prod.snd heq]
            rw [hps.1, hps.2]
            cases hcase : (getCell b r c).status with
            | hidden => exact absurd hcase hstat
            | revealed => rfl
            | flagged => exact absurd hcase (hnf r c)
          · exact Or.inr hmem
/-! ### C3: on an all-zero board the flood fill reveals everything -/

theorem closed_connected (b : BoardData) (rows cols : Nat)
    (hd : dims b rows cols) (hcl : bfsClosed b [])
    (r0 c0 : Nat) (hr0 : r0 < rows) (hc0 : c0 < cols)
    (hrev : (getCell b r0 c0).status = CellStatus.revealed) :
    ∀ r, r < rows → ∀ c, c < cols →
      (getCell b r c).status = CellStatus.revealed := by
  have hrows : 0 < rows := by omega
  have hlen : b.length = rows := hd.1
  have hcols : boardCols b = cols := boardCols_dims b rows cols hd hrows
  have hstep : ∀ yr yc nr nc : Nat, yr < rows → yc < cols → nr < rows →
      nc < cols → (getCell b yr yc).status = CellStatus.revealed →
      ∀ e ∈ DIRECTIONS, (nr : Int) = (yr : Int) + e.1 →
      (nc : Int) = (yc : Int) + e.2 →
      (getCell b nr nc).status = CellStatus.revealed := by
    intro yr yc nr nc h1 h2 h3 h4 hyrev e he hnr hnc
    have hres := hcl yr yc (by omega) (by omega) hyrev e he nr nc hnr hnc
      (by omega) (by omega)
    rcases hres with h | h
    · exact h
    · cases h
  have hvert : ∀ r, r < rows →
      (getCell b r c0).status = CellStatus.revealed := by
    have hup : ∀ k, r0 + k < rows →
        (getCell b (r0 + k) c0).status = CellStatus.revealed := by
      intro k
      induction k with
      | zero => intro _; simpa using hrev
      | succ k ih =>
        intro hk
        refine hstep (r0 + k) c0 (r0 + k + 1) c0 (by omega) hc0 (by omega) hc0
          (ih (by omega)) ((1 : Int), (0 : Int)) (by decide) ?_ ?_
        · show ((r0 + k + 1 : Nat) : Int) = ((r0 + k : Nat) : Int) + 1
          push_cast
          ring
        · show ((c0 : Nat) : Int) = ((c0 : Nat) : Int) + 0
          omega
    have hdown : ∀ k, k ≤ r0 →
        (getCell b (r0 - k) c0).status = CellStatus.revealed := by
      intro k
      induction k with
      | zero => intro _; simpa using hrev
      | succ k ih =>
        intro hk
        refine hstep (r0 - k) c0 (r0 - k - 1) c0 (by omega) hc0 (by omega) hc0
          (ih (by omega)) ((-1 : Int), (0 : Int)) (by decide) ?_ ?_
        · show ((r0 - k - 1 : Nat) : Int) = ((r0 - k : Nat) : Int) + (-1)
          omega
        · show ((c0 : Nat) : Int) = ((c0 : Nat) : Int) + 0
          omega
    intro r hr
    by_cases hge : r0 ≤ r
    · have h := hup (r - r0) (by omega)
      rw [show r0 + (r - r0) = r by omega] at h
      exact h
    · have h := hdown (r0 - r) (by omega)
      rw [show r0 - (r0 - r) = r by omega] at h
      exact h
  intro r hr c hc
  have hbase := hvert r hr
  have hright : ∀ k, c0 + k < cols →
      (getCell b r (c0 + k)).status = CellStatus.revealed := by
    intro k
    induction k with
    | zero => intro _; simpa using hbase
    | succ k ih =>
      intro hk
      refine hstep r (c0 + k) r (c0 + k + 1) hr (by omega) hr (by omega)
        (ih (by omega)) ((0 : Int), (1 : Int)) (by decide) ?_ ?_
      · show ((r : Nat) : Int) = ((r : Nat) : Int) + 0
        omega
      · show ((c0 + k + 1 : Nat) : Int) = ((c0 + k : Nat) : Int) + 1
        push_cast
        ring
  have hleft : ∀ k, k ≤ c0 →
      (getCell b r (c0 - k)).status = CellStatus.revealed := by
    intro k
    induction k with
    | zero => intro _; simpa using hbase
    | succ k ih =>
      intro hk
      refine hstep r (c0 - k) r (c0 - k - 1) hr (by omega) hr (by omega)
        (ih (by omega)) ((0 : Int), (-1 : Int)) (by decide) ?_ ?_
      · show ((r : Nat) : Int) = ((r : Nat) : Int) + 0
        omega
      · show ((c0 - k - 1 : Nat) : Int) = ((c0 - k : Nat) : Int) + (-1)
        omega
  by_cases hge : c0 ≤ c
  · have h := hright (c - c0) (by omega)
    rw [show c0 + (c - c0) = c by omega] at h
    exact h
  · have h := hleft (c0 - c) (by omega)
    rw [show c0 - (c0 - c) = c by omega] at h
    exact h

/-- C3: on a rectangular board with no mines, all `neighborMines = 0` and
every cell hidden, a single `revealCell` call at any in-bounds coordinate
terminates (the BFS measure is well-founded and the run returns `some`),
does not explode, and reveals every cell of the board. -/
theorem revealCell_noMines_revealsAll
    (b : BoardData) (rows cols r0 c0 : Nat)
    (hd : dims b rows cols)
    (hcells : ∀ r, r < rows → ∀ c, c < cols →
      (getCell b r c).isMine = false ∧ (getCell b r c).neighborMines = 0 ∧
      (getCell b r c).status = CellStatus.hidden)
    (hr0 : r0 < rows) (hc0 : c0 < cols) :
    ∃ b2, revealCell b r0 c0 = some (b2, false) ∧
      ∀ r, r < rows → ∀ c, c < cols →
        (getCell b2 r c).status = CellStatus.revealed := by
  have hr0b : r0 < b.length := by rw [hd.1]; exact hr0
  have hc0b : c0 < (b.getD r0 []).length := by rw [hd.2 r0 hr0]; exact hc0
  obtain ⟨hmine0, hzero0, hstat0⟩ := hcells r0 hr0 c0 hc0
  have hnf : ∀ i j, (getCell b i j).status ≠ CellStatus.flagged := by
    intro i j
    by_cases hb : i < b.length ∧ j < (b.getD i []).length
    · have hi : i < rows := by rw [← hd.1]; exact hb.1
      have hj : j < cols := by
        rw [← hd.2 i hi]; exact hb.2
      rw [(hcells i hi j hj).2.2]
      simp
    · rw [getCell_oob _ _ _ hb]
      simp [defaultCell]
  have hz : ∀ i j, i < b.length → j < (b.getD i []).length →
      (getCell b i j).neighborMines = 0 := by
    intro i j hi hj
    have hi2 : i < rows := by rw [← hd.1]; exact hi
    exact (hcells i hi2 j (by rw [← hd.2 i hi2]; exact hj)).2.1
  have hsome := bfsLoop_isSome rows cols
    (hiddenCount b * 9 + 1) b [(r0, c0)] (by simp) hd
    (by intro x hx; rcases List.mem_cons.mp hx with h | h
        · rw [h]; exact ⟨hr0, hc0⟩
        · cases h)
  obtain ⟨b2, hb2⟩ := Option.isSome_iff_exists.mp hsome
  have hcl0 : bfsClosed b [(r0, c0)] := by
    intro yr yc hyr hyc hyrev e he nr nc hnr hnc hnrb hncb
    have hyr2 : yr < rows := by rw [← hd.1]; exact hyr
    have hyc2 : yc < cols := by
      rw [← boardCols_dims b rows cols hd (by omega)]; exact hyc
    rw [(hcells yr hyr2 yc hyc2).2.2] at hyrev
    cases hyrev
  have hclosed2 := bfsLoop_closed (hiddenCount b * 9 + 1)
    b [(r0, c0)] b2 hnf hz hcl0 hb2
  have hrev0 := bfsLoop_processed (hiddenCount b * 9 + 1)
    b [(r0, c0)] b2 hnf hb2 (r0, c0)
    (List.mem_cons_self _ _) hr0b hc0b
  have hframe := bfsLoop_frame_of_some (hiddenCount b * 9 + 1)
    b [(r0, c0)] b2 hb2
  have hd2 : dims b2 rows cols :=
    ⟨hframe.1.trans hd.1, fun i hi => (hframe.2.1 i).trans (hd.2 i hi)⟩
  refine ⟨b2, ?_, ?_⟩
  · simp only [revealCell]
    rw [if_pos ⟨hr0b, hc0b⟩]
    rw [if_neg (by simp [hstat0]), if_neg (by simp [hmine0]), hb2]
    rfl
  · exact closed_connected b2 rows cols hd2 hclosed2 r0 c0 hr0 hc0 hrev0

/-- Witness for C3: revealing (2,2) on an empty 5×5 board reveals all. -/
theorem revealCell_noMines_revealsAll_witness :
    ∃ b2, revealCell (createEmptyBoard 5 5) 2 2 = some (b2, false) ∧
      ∀ r, r < 5 → ∀ c, c < 5 →
        (getCell b2 r c).status = CellStatus.revealed :=
  revealCell_noMines_revealsAll (createEmptyBoard 5 5) 5 5 2 2 (by decide)
    (by decide) (by decide) (by decide)

/-! ### C10: flood fill on a consistent board never reveals a mine and
never touches a flag -/

/-- The `neighborMines` fields of non-mine cells match the mine layout. -/
def consistentBoard (b : BoardData) (rows cols : Nat) : Prop :=
  ∀ r, r < rows → ∀ c, c < cols → (getCell b r c).isMine = false →
    (getCell b r c).neighborMines = countAdjacentMines b rows cols r c

instance consistentBoardDecidable (b : BoardData) (rows cols : Nat) :
    Decidable (consistentBoard b rows cols) := by
  unfold consistentBoard
  infer_instance

theorem pushNeighbors_mem_elim (b : BoardData) (r c : Nat) (y : Nat × Nat)
    (hy : y ∈ pushNeighbors b r c) :
    ∃ e ∈ DIRECTIONS, (y.1 : Int) = (r : Int) + e.1 ∧
      (y.2 : Int) = (c : Int) + e.2 := by
  rw [pushNeighbors, List.mem_filterMap] at hy
  obtain ⟨e, he, hcond⟩ := hy
  dsimp only at hcond
  split_ifs at hcond with hc
  obtain ⟨h1, h2, h3, h4, h5⟩ := hc
  cases hcond
  exact ⟨e, he, by omega, by omega⟩

theorem no_adjacent_mine (b : BoardData) (rows cols r c : Nat)
    (hzero : countAdjacentMines b rows cols r c = 0)
    (e : Int × Int) (he : e ∈ DIRECTIONS) (nr nc : Nat)
    (hnr : (nr : Int) = (r : Int) + e.1) (hnc : (nc : Int) = (c : Int) + e.2)
    (hnrb : nr < rows) (hncb : nc < cols) :
    (getCell b nr nc).isMine = false := by
  by_contra hmine
  have hmine2 : (getCell b nr nc).isMine = true := by
    cases hcase : (getCell b nr nc).isMine with
    | false => exact absurd hcase hmine
    | true => rfl
  rw [countAdjacentMines, List.length_eq_zero] at hzero
  have hememf : e ∈ DIRECTIONS.filter (fun d =>
      let nr2 : Int := (r : Int) + d.1
      let nc2 : Int := (c : Int) + d.2
      decide (0 ≤ nr2) && decide (nr2 < (rows : Int)) &&
      decide (0 ≤ nc2) && decide (nc2 < (cols : Int)) &&
      (getCell b nr2.toNat nc2.toNat).isMine) := by
    rw [List.mem_filter]
    refine ⟨he, ?_⟩
    dsimp only
    have h1 : ((r : Int) + e.1).toNat = nr := by omega
    have h2 : ((c : Int) + e.2).toNat = nc := by omega
    rw [h1, h2]
    simp only [Bool.and_eq_true, decide_eq_true_eq]
    exact ⟨⟨⟨⟨by omega, by omega⟩, by omega⟩, by omega⟩, hmine2⟩
  rw [hzero] at hememf
  cases hememf

theorem consistent_of_frame (b b' : BoardData) (rows cols : Nat)
    (h : bfsFrame b b') (hc : consistentBoard b rows cols) :
    consistentBoard b' rows cols := by
  intro r hr c hc2 hm
  have hf := bfsFrame_fields b b' h r c
  rw [hf.1] at hm
  rw [hf.2.1, hc r hr c hc2 hm]
  exact (countAdjacentMines_congr b b' rows cols r c
    (fun i j => (bfsFrame_fields b b' h i j).1)).symm

theorem bfsLoop_no_mine_change (rows cols : Nat) : ∀ (fuel : Nat)
    (b : BoardData) (q : List (Nat × Nat)) (b' : BoardData),
    dims b rows cols →
    consistentBoard b rows cols →
    (∀ x ∈ q, x.1 < rows ∧ x.2 < cols ∧
      (getCell b x.1 x.2).isMine = false) →
    bfsLoop fuel b q = some b' →
    ∀ r c, (getCell b r c).isMine = true →
      getCell b' r c = getCell b r c := by
  intro fuel
  induction fuel with
  | zero =>
    intro b q b' hd hcons hq hrun r c hmine
    match q with
    | [] =>
      simp only [bfsLoop, Option.some_inj] at hrun
      subst hrun
      rfl
    | x :: rest =>
      simp only [bfsLoop] at hrun
      cases hrun
  | succ n ihn =>
    intro b q b' hd hcons hq hrun i j hmine
    match q with
    | [] =>
      simp only [bfsLoop, Option.some_inj] at hrun
      subst hrun
      rfl
    | (r, c) :: rest =>
      have hhead := hq (r, c) (List.mem_cons_self _ _)
      have hrestq0 : ∀ x ∈ rest, x.1 < rows ∧ x.2 < cols ∧
          (getCell b x.1 x.2).isMine = false :=
        fun x hx => hq x (List.mem_cons_of_mem _ hx)
      simp only [bfsLoop] at hrun
      split_ifs at hrun with hrc hstat hzero
      · -- reveal and push
        have hstep := bfsFrame_revealAt b r c hrc.1 hrc.2 hstat
        have hne : ¬(i = r ∧ j = c) := by
          rintro ⟨hh1, hh2⟩
          rw [hh1, hh2] at hmine
          rw [hhead.2.2] at hmine
          cases hmine
        have hkeep : getCell (revealAt b r c) i j = getCell b i j := by
          rw [revealAt, getCell_setCell_ne _ _ _ _ _ _ hne]
        have hd2 : dims (revealAt b r c) rows cols :=
          dims_revealAt b rows cols r c hd
        have hcons2 : consistentBoard (revealAt b r c) rows cols :=
          consistent_of_frame b _ rows cols hstep hcons
        have hzero2 : countAdjacentMines b rows cols r c = 0 := by
          rw [← hcons r hhead.1 c hhead.2.1 hhead.2.2]
          exact hzero
        have hq2 : ∀ x ∈ rest ++ pushNeighbors (revealAt b r c) r c,
            x.1 < rows ∧ x.2 < cols ∧
            (getCell (revealAt b r c) x.1 x.2).isMine = false := by
          intro x hx
          rcases List.mem_append.mp hx with hx | hx
          · obtain ⟨hb1, hb2, hb3⟩ := hrestq0 x hx
            refine ⟨hb1, hb2, ?_⟩
            rw [(bfsFrame_fields b _ hstep x.1 x.2).1]
            exact hb3
          · have hbd := pushNeighbors_bounds _ _ _ _ hx
            obtain ⟨e, he, he1, he2⟩ := pushNeighbors_mem_elim _ _ _ _ hx
            have hx1 : x.1 < rows := by rw [← hd2.1]; exact hbd.1
            have hx2 : x.2 < cols := by
              rw [← boardCols_dims _ rows cols hd2 (by omega)]
              exact hbd.2.1
            refine ⟨hx1, hx2, ?_⟩
            rw [(bfsFrame_fields b _ hstep x.1 x.2).1]
            exact no_adjacent_mine b rows cols r c hzero2 e he x.1 x.2
              he1 he2 hx1 hx2
        have hres := ihn (revealAt b r c) _ b' hd2 hcons2 hq2 hrun i j
          (by rw [hkeep]; exact hmine)
        rw [hres, hkeep]
      · -- reveal without pushing
        have hstep := bfsFrame_revealAt b r c hrc.1 hrc.2 hstat
        have hne : ¬(i = r ∧ j = c) := by
          rintro ⟨hh1, hh2⟩
          rw [hh1, hh2] at hmine
          rw [hhead.2.2] at hmine
          cases hmine
        have hkeep : getCell (revealAt b r c) i j = getCell b i j := by
          rw [revealAt, getCell_setCell_ne _ _ _ _ _ _ hne]
        have hd2 : dims (revealAt b r c) rows cols :=
          dims_revealAt b rows cols r c hd
        have hcons2 : consistentBoard (revealAt b r c) rows cols :=
          consistent_of_frame b _ rows cols hstep hcons
        have hq2 : ∀ x ∈ rest, x.1 < rows ∧ x.2 < cols ∧
            (getCell (revealAt b r c) x.1 x.2).isMine = false := by
          intro x hx
          obtain ⟨hb1, hb2, hb3⟩ := hrestq0 x hx
          refine ⟨hb1, hb2, ?_⟩
          rw [(bfsFrame_fields b _ hstep x.1 x.2).1]
          exact hb3
        have hres := ihn (revealAt b r c) _ b' hd2 hcons2 hq2 hrun i j
          (by rw [hkeep]; exact hmine)
        rw [hres, hkeep]
      · -- skip
        exact ihn b rest b' hd hcons hrestq0 hrun i j hmine
/-- C10: on a board whose `neighborMines` fields are consistent with the
mine layout, `revealCell` at an in-bounds non-mine cell returns
`exploded = false` and leaves the status of every mine cell and every
flagged cell unchanged. -/
theorem revealCell_consistent_no_mine_reveal
    (b : BoardData) (rows cols row col : Nat) (b2 : BoardData) (ex : Bool)
    (hd : dims b rows cols)
    (hcons : consistentBoard b rows cols)
    (hrow : row < rows) (hcol : col < cols)
    (hmine : (getCell b row col).isMine = false)
    (hrun : revealCell b row col = some (b2, ex)) :
    ex = false ∧
    (∀ r c, (getCell b r c).isMine = true →
      (getCell b2 r c).status = (getCell b r c).status) ∧
    (∀ r c, (getCell b r c).status = CellStatus.flagged →
      (getCell b2 r c).status = (getCell b r c).status) := by
  have hrb : row < b.length := by rw [hd.1]; exact hrow
  have hcb : col < (b.getD row []).length := by rw [hd.2 row hrow]; exact hcol
  simp only [revealCell] at hrun
  rw [if_pos ⟨hrb, hcb⟩] at hrun
  split_ifs at hrun with h1 h2
  · -- not hidden: no-op
    simp only [Option.some_inj, Prod.mk.injEq] at hrun
    obtain ⟨hb2, hex⟩ := hrun
    subst hb2
    exact ⟨hex.symm, fun r c _ => rfl, fun r c _ => rfl⟩
  · -- a mine: excluded by hypothesis
    exact absurd h2 (by simp [hmine])
  · -- flood fill
    obtain ⟨bb, hbb, heq⟩ := Option.map_eq_some'.mp hrun
    have hb2 : b2 = bb := by
      have := congrArg Prod.fst heq
      exact this.symm
    have hex : ex = false := by
      have := congrArg Prod.snd heq
      exact this.symm
    subst hb2
    have hframe := bfsLoop_frame_of_some (hiddenCount b * 9 + 1)
      b [(row, col)] b2 hbb
    have hmines := bfsLoop_no_mine_change rows cols
      (hiddenCount b * 9 + 1) b [(row, col)] b2 hd hcons
      (by intro x hx
          rcases List.mem_cons.mp hx with h | h
          · rw [h]; exact ⟨hrow, hcol, hmine⟩
          · cases h) hbb
    refine ⟨hex, fun r c hm => by rw [hmines r c hm], fun r c hf => ?_⟩
    rcases hframe.2.2 r c with he | ⟨hh, _⟩
    · rw [he]
    · rw [hf] at hh
      cases hh

/-- Witness for C10: a 5×5 board with one mine at (0,0) (counts computed by
`computeNeighbors`, so consistent) and a flag at (4,0); revealing (2,2)
leaves the mine and the flag untouched and does not explode. -/
theorem revealCell_consistent_no_mine_reveal_witness :
    ∃ p : BoardData × Bool,
      revealCell (setCell (computeNeighbors 5 5
          (setMine (createEmptyBoard 5 5) 0 0)) 4 0
        { getCell (computeNeighbors 5 5
            (setMine (createEmptyBoard 5 5) 0 0)) 4 0 with
          status := CellStatus.flagged }) 2 2 = some p ∧
      p.2 = false ∧
      (getCell p.1 0 0).status =
        (getCell (setCell (computeNeighbors 5 5
            (setMine (createEmptyBoard 5 5) 0 0)) 4 0
          { getCell (computeNeighbors 5 5
              (setMine (createEmptyBoard 5 5) 0 0)) 4 0 with
            status := CellStatus.flagged }) 0 0).status ∧
      (getCell p.1 4 0).status =
        (getCell (setCell (computeNeighbors 5 5
            (setMine (createEmptyBoard 5 5) 0 0)) 4 0
          { getCell (computeNeighbors 5 5
              (setMine (createEmptyBoard 5 5) 0 0)) 4 0 with
            status := CellStatus.flagged }) 4 0).status := by
  cases hres : revealCell (setCell (computeNeighbors 5 5
      (setMine (createEmptyBoard 5 5) 0 0)) 4 0
      { getCell (computeNeighbors 5 5
          (setMine (createEmptyBoard 5 5) 0 0)) 4 0 with
        status := CellStatus.flagged }) 2 2 with
  | none =>
    have hns : (revealCell (setCell (computeNeighbors 5 5
        (setMine (createEmptyBoard 5 5) 0 0)) 4 0
        { getCell (computeNeighbors 5 5
            (setMine (createEmptyBoard 5 5) 0 0)) 4 0 with
          status := CellStatus.flagged }) 2 2).isSome = true := by decide
    rw [hres] at hns
    cases hns
  | some p =>
    have h := revealCell_consistent_no_mine_reveal
      (setCell (computeNeighbors 5 5 (setMine (createEmptyBoard 5 5) 0 0)) 4 0
        { getCell (computeNeighbors 5 5
            (setMine (createEmptyBoard 5 5) 0 0)) 4 0 with
          status := CellStatus.flagged }) 5 5 2 2 p.1 p.2
      (by decide) (by decide) (by decide) (by decide) (by decide)
      (by rw [hres])
    exact ⟨p, rfl, h.1, h.2.1 0 0 (by decide), h.2.2 4 0 (by decide)⟩

/-! ### C9: the engine never touches `isMine` or `neighborMines` -/

theorem getD_map_lt {α β : Type} (f : α → β) (l : List α) (i : Nat)
    (d : α) (d2 : β) (h : i < l.length) :
    (l.map f).getD i d2 = f (l.getD i d) := by
  rw [List.getD_eq_getElem?_getD, List.getElem?_map,
    List.getElem?_eq_getElem h, List.getD_eq_getElem?_getD,
    List.getElem?_eq_getElem h]
  rfl

theorem getCell_revealAllMines (b : BoardData) (won : Bool) (r c : Nat) :
    getCell (revealAllMines b won) r c =
      if r < b.length ∧ c < (b.getD r []).length then
        (if (getCell b r c).isMine then
          if won then { getCell b r c with status := CellStatus.flagged }
          else if (getCell b r c).status ≠ CellStatus.flagged then
            { getCell b r c with status := CellStatus.revealed }
          else getCell b r c
        else getCell b r c)
      else getCell b r c := by
  by_cases h1 : r < b.length
  · by_cases h2 : c < (b.getD r []).length
    · rw [getCell, revealAllMines, getD_map_lt _ b r ([] : List CellData) _ h1,
        getD_map_lt _ _ c defaultCell _ h2,
        if_pos (show r < b.length ∧ c < (b.getD r []).length from ⟨h1, h2⟩)]
      rfl
    · have hoob : ¬(r < b.length ∧ c < (b.getD r []).length) :=
        fun hh => h2 hh.2
      have hlen2 : ((revealAllMines b won).getD r []).length =
          (b.getD r []).length := by
        rw [revealAllMines, getD_map_lt _ b r ([] : List CellData) _ h1,
          List.length_map]
      have hoob2 : ¬(r < (revealAllMines b won).length ∧
          c < ((revealAllMines b won).getD r []).length) := by
        rw [hlen2]
        exact fun hh => h2 hh.2
      rw [getCell_oob _ _ _ hoob2, getCell_oob _ _ _ hoob, if_neg hoob]
  · have hoob : ¬(r < b.length ∧ c < (b.getD r []).length) :=
      fun hh => h1 hh.1
    have hoob2 : ¬(r < (revealAllMines b won).length ∧
        c < ((revealAllMines b won).getD r []).length) := by
      rw [revealAllMines, List.length_map]
      exact fun hh => h1 hh.1
    rw [getCell_oob _ _ _ hoob2, getCell_oob _ _ _ hoob, if_neg hoob]

theorem revealAllMines_preserve (b : BoardData) (won : Bool) (r c : Nat) :
    (getCell (revealAllMines b won) r c).isMine = (getCell b r c).isMine ∧
    (getCell (revealAllMines b won) r c).neighborMines =
      (getCell b r c).neighborMines ∧
    (getCell (revealAllMines b won) r c).exploded =
      (getCell b r c).exploded := by
  rw [getCell_revealAllMines]
  split_ifs <;> simp

/-- C9: `revealCell`, `toggleFlag` and `revealAllMines` never change any
cell's `isMine` or `neighborMines`.  (The deep-copy / no-input-mutation
aspect of the source is value semantics, which the pure embedding has by
construction: the input board is a value and cannot be mutated.) -/
theorem engine_preserves_mines_and_counts
    (b : BoardData) (row col : Nat) (won : Bool)
    (b2 : BoardData) (ex : Bool) (b3 : BoardData) :
    (revealCell b row col = some (b2, ex) →
      ∀ r c, (getCell b2 r c).isMine = (getCell b r c).isMine ∧
        (getCell b2 r c).neighborMines = (getCell b r c).neighborMines) ∧
    (toggleFlag b row col = some b3 →
      ∀ r c, (getCell b3 r c).isMine = (getCell b r c).isMine ∧
        (getCell b3 r c).neighborMines = (getCell b r c).neighborMines) ∧
    (∀ r c,
      (getCell (revealAllMines b won) r c).isMine =
        (getCell b r c).isMine ∧
      (getCell (revealAllMines b won) r c).neighborMines =
        (getCell b r c).neighborMines) := by
  refine ⟨?_, ?_, ?_⟩
  · intro hrun r c
    simp only [revealCell] at hrun
    split_ifs at hrun with h1 h2 h3
    · simp only [Option.some_inj, Prod.mk.injEq] at hrun
      rw [← hrun.1]
      exact ⟨rfl, rfl⟩
    · simp only [Option.some_inj, Prod.mk.injEq] at hrun
      rw [← hrun.1]
      by_cases hsame : r = row ∧ c = col
      · rw [hsame.1, hsame.2,
          getCell_setCell_self _ _ _ _ h1.1 h1.2]
        exact ⟨rfl, rfl⟩
      · rw [getCell_setCell_ne _ _ _ _ _ _ hsame]
        exact ⟨rfl, rfl⟩
    · obtain ⟨bb, hbb, heq⟩ := Option.map_eq_some'.mp hrun
      have hb2 : b2 = bb := (congrArg Prod.fst heq).symm
      subst hb2
      have hf := bfsFrame_fields b b2
        (bfsLoop_frame_of_some _ _ _ _ hbb) r c
      exact ⟨hf.1, hf.2.1⟩
  · intro hrun r c
    simp only [toggleFlag] at hrun
    split_ifs at hrun with h1 h2 h3
    · simp only [Option.some_inj] at hrun
      rw [← hrun]
      by_cases hsame : r = row ∧ c = col
      · rw [hsame.1, hsame.2, getCell_setCell_self _ _ _ _ h1.1 h1.2]
        exact ⟨rfl, rfl⟩
      · rw [getCell_setCell_ne _ _ _ _ _ _ hsame]
        exact ⟨rfl, rfl⟩
    · simp only [Option.some_inj] at hrun
      rw [← hrun]
      by_cases hsame : r = row ∧ c = col
      · rw [hsame.1, hsame.2, getCell_setCell_self _ _ _ _ h1.1 h1.2]
        exact ⟨rfl, rfl⟩
      · rw [getCell_setCell_ne _ _ _ _ _ _ hsame]
        exact ⟨rfl, rfl⟩
    · simp only [Option.some_inj] at hrun
      rw [← hrun]
      exact ⟨rfl, rfl⟩
  · intro r c
    have h := revealAllMines_preserve b won r c
    exact ⟨h.1, h.2.1⟩

/-- Witness for C9 at concrete inputs: a 5×5 board with (0,0) revealed;
revealing (0,0) again is a no-op, a flag toggle at (0,0) is a no-op on a
revealed cell, and mine disclosure runs on the same board. -/
theorem engine_preserves_mines_and_counts_witness :
    ((getCell (setCell (createEmptyBoard 5 5) 0 0
        { getCell (createEmptyBoard 5 5) 0 0 with
          status := CellStatus.revealed }) 0 0).isMine =
      (getCell (setCell (createEmptyBoard 5 5) 0 0
        { getCell (createEmptyBoard 5 5) 0 0 with
          status := CellStatus.revealed }) 0 0).isMine ∧
     (getCell (setCell (createEmptyBoard 5 5) 0 0
        { getCell (createEmptyBoard 5 5) 0 0 with
          status := CellStatus.revealed }) 0 0).neighborMines =
      (getCell (setCell (createEmptyBoard 5 5) 0 0
        { getCell (createEmptyBoard 5 5) 0 0 with
          status := CellStatus.revealed }) 0 0).neighborMines) ∧
    ((getCell (revealAllMines (setCell (createEmptyBoard 5 5) 0 0
        { getCell (createEmptyBoard 5 5) 0 0 with
          status := CellStatus.revealed }) false) 1 1).isMine =
      (getCell (setCell (createEmptyBoard 5 5) 0 0
        { getCell (createEmptyBoard 5 5) 0 0 with
          status := CellStatus.revealed }) 1 1).isMine ∧
     (getCell (revealAllMines (setCell (createEmptyBoard 5 5) 0 0
        { getCell (createEmptyBoard 5 5) 0 0 with
          status := CellStatus.revealed }) false) 1 1).neighborMines =
      (getCell (setCell (createEmptyBoard 5 5) 0 0
        { getCell (createEmptyBoard 5 5) 0 0 with
          status := CellStatus.revealed }) 1 1).neighborMines) := by
  have h := engine_preserves_mines_and_counts
    (setCell (createEmptyBoard 5 5) 0 0
      { getCell (createEmptyBoard 5 5) 0 0 with
        status := CellStatus.revealed }) 0 0 false
    (setCell (createEmptyBoard 5 5) 0 0
      { getCell (createEmptyBoard 5 5) 0 0 with
        status := CellStatus.revealed }) false
    (setCell (createEmptyBoard 5 5) 0 0
      { getCell (createEmptyBoard 5 5) 0 0 with
        status := CellStatus.revealed })
  exact ⟨h.1 (by decide) 0 0, h.2.2 1 1⟩

/-! ### C2: win detection -/

theorem length_filter_and_split {α : Type} (p q : α → Bool) (l : List α) :
    (l.filter (fun x => p x && q x)).length +
      (l.filter (fun x => !p x && q x)).length = (l.filter q).length := by
  induction l with
  | nil => simp
  | cons a tl ih =>
    rw [List.filter_cons, List.filter_cons, List.filter_cons]
    by_cases hq : q a = true
    · by_cases hp : p a = true
      · rw [if_pos (by simp [hp, hq]), if_neg (by simp [hp]), if_pos hq]
        simp only [List.length_cons]
        omega
      · rw [if_neg (by simp [hp]), if_pos (by simp [hp, hq]), if_pos hq]
        simp only [List.length_cons]
        omega
    · rw [if_neg (by simp [hq]), if_neg (by simp [hq]), if_neg hq]
      exact ih

theorem sum_map_add_split {α : Type} (l : List α) (f g h : α → Nat)
    (hfg : ∀ x ∈ l, f x + g x = h x) :
    (l.map f).sum + (l.map g).sum = (l.map h).sum := by
  induction l with
  | nil => simp
  | cons a tl ih =>
    simp only [List.map_cons, List.sum_cons]
    have h1 := hfg a (List.mem_cons_self _ _)
    have h2 := ih (fun x hx => hfg x (List.mem_cons_of_mem _ hx))
    omega

theorem countIn_split (b : BoardData) (rows cols : Nat)
    (p q : CellData → Bool) :
    countIn b rows cols (fun cell => p cell && q cell) +
      countIn b rows cols (fun cell => !p cell && q cell) =
      countIn b rows cols q := by
  rw [countIn, countIn, countIn]
  apply sum_map_add_split
  intro r hr
  exact length_filter_and_split (fun c => p (getCell b r c))
    (fun c => q (getCell b r c)) (List.range cols)

theorem countIn_true (b : BoardData) (rows cols : Nat) :
    countIn b rows cols (fun _ => true) = rows * cols := by
  rw [countIn]
  have h1 : ∀ r, ((List.range cols).filter
      (fun c => (fun (_ : CellData) => true) (getCell b r c))).length = cols := by
    intro r
    rw [List.filter_true, List.length_range]
  induction rows with
  | zero => simp
  | succ n ih =>
    rw [List.range_succ, List.map_append, List.sum_append]
    rw [ih]
    simp only [List.map_cons, List.map_nil, List.sum_cons, List.sum_nil]
    rw [h1 n]
    ring

theorem le_sum_map_range (f : Nat → Nat) (n i : Nat) (hi : i < n) :
    f i ≤ ((List.range n).map f).sum := by
  induction n with
  | zero => omega
  | succ m ih =>
    rw [List.range_succ, List.map_append, List.sum_append]
    by_cases hlt : i < m
    · have := ih hlt
      omega
    · have hieq : i = m := by omega
      subst hieq
      simp

theorem countIn_pos (b : BoardData) (rows cols : Nat) (p : CellData → Bool)
    (r0 c0 : Nat) (hr0 : r0 < rows) (hc0 : c0 < cols)
    (hp : p (getCell b r0 c0) = true) : 1 ≤ countIn b rows cols p := by
  rw [countIn]
  have hmem : c0 ∈ (List.range cols).filter (fun c => p (getCell b r0 c)) :=
    List.mem_filter.mpr ⟨List.mem_range.mpr hc0, hp⟩
  have hlen : 1 ≤ ((List.range cols).filter
      (fun c => p (getCell b r0 c))).length := by
    have := List.length_pos.mpr (List.ne_nil_of_mem hmem)
    omega
  have hle : ((List.range cols).filter (fun c => p (getCell b r0 c))).length ≤
      ((List.range rows).map (fun r =>
        ((List.range cols).filter (fun c => p (getCell b r c))).length)).sum :=
    le_sum_map_range (fun r =>
      ((List.range cols).filter (fun c => p (getCell b r c))).length) rows r0 hr0
  omega

theorem revealedSafeCount_eq_countIn (b : BoardData) (rows cols : Nat) :
    revealedSafeCount b rows cols = countIn b rows cols
      (fun cell => cell.status == CellStatus.revealed && !cell.isMine) := rfl

/-- C2: `checkWin` is true iff the revealed-non-mine count equals
`rows*cols − mines`; on a board with exactly `mines` mines it is false
whenever some in-bounds non-mine cell is unrevealed; and toggling a flag
never changes the verdict. -/
theorem checkWin_iff_revealed_safe
    (b : BoardData) (d : Difficulty) (row col : Nat) (b2 : BoardData)
    (hd : dims b d.rows d.cols) :
    (checkWin b d = true ↔
      (revealedSafeCount b d.rows d.cols : Int) =
        (d.rows : Int) * (d.cols : Int) - (d.mines : Int)) ∧
    (cellCount (fun cell => cell.isMine) b = d.mines →
      ∀ r0 c0, r0 < d.rows → c0 < d.cols →
        (getCell b r0 c0).isMine = false →
        (getCell b r0 c0).status ≠ CellStatus.revealed →
        checkWin b d = false) ∧
    (toggleFlag b row col = some b2 → checkWin b2 d = checkWin b d) := by
  refine ⟨?_, ?_, ?_⟩
  · rw [checkWin]
    exact beq_iff_eq
  · intro hmines r0 c0 hr0 hc0 hnm hns
    have hsplit1 := countIn_split b d.rows d.cols
      (fun cell => cell.status == CellStatus.revealed)
      (fun cell => !cell.isMine)
    have hsplit2 := countIn_split b d.rows d.cols
      (fun cell => cell.isMine) (fun _ => true)
    have htrue := countIn_true b d.rows d.cols
    have hmine_eq : countIn b d.rows d.cols
        (fun cell => cell.isMine && true) =
        countIn b d.rows d.cols (fun cell => cell.isMine) := by
      apply countIn_congr
      intro r hr c hc
      simp
    have hnotmine_eq : countIn b d.rows d.cols
        (fun cell => !cell.isMine && true) =
        countIn b d.rows d.cols (fun cell => !cell.isMine) := by
      apply countIn_congr
      intro r hr c hc
      simp
    have hbridge : countIn b d.rows d.cols (fun cell => cell.isMine) =
        d.mines := by
      rw [← cellCount_eq_countIn _ _ _ _ hd]
      exact hmines
    have hpos := countIn_pos b d.rows d.cols
      (fun cell => !(cell.status == CellStatus.revealed) && !cell.isMine)
      r0 c0 hr0 hc0 (by simp [hnm, hns])
    rw [checkWin, beq_eq_false_iff_ne, revealedSafeCount_eq_countIn]
    have hA := hsplit1
    omega
  · intro hrun
    simp only [toggleFlag] at hrun
    split_ifs at hrun with h1 h2 h3
    · simp only [Option.some_inj] at hrun
      subst hrun
      rw [checkWin, checkWin, revealedSafeCount_eq_countIn,
        revealedSafeCount_eq_countIn]
      have : countIn (setCell b row col
          { getCell b row col with status := CellStatus.flagged })
          d.rows d.cols
          (fun cell => cell.status == CellStatus.revealed && !cell.isMine) =
          countIn b d.rows d.cols
          (fun cell => cell.status == CellStatus.revealed && !cell.isMine) := by
        apply countIn_congr
        intro r hr c hc
        by_cases hsame : r = row ∧ c = col
        · rw [hsame.1, hsame.2, getCell_setCell_self _ _ _ _ h1.1 h1.2, h2]
          rfl
        · rw [getCell_setCell_ne _ _ _ _ _ _ hsame]
      rw [this]
    · simp only [Option.some_inj] at hrun
      subst hrun
      rw [checkWin, checkWin, revealedSafeCount_eq_countIn,
        revealedSafeCount_eq_countIn]
      have : countIn (setCell b row col
          { getCell b row col with status := CellStatus.hidden })
          d.rows d.cols
          (fun cell => cell.status == CellStatus.revealed && !cell.isMine) =
          countIn b d.rows d.cols
          (fun cell => cell.status == CellStatus.revealed && !cell.isMine) := by
        apply countIn_congr
        intro r hr c hc
        by_cases hsame : r = row ∧ c = col
        · rw [hsame.1, hsame.2, getCell_setCell_self _ _ _ _ h1.1 h1.2, h3]
          rfl
        · rw [getCell_setCell_ne _ _ _ _ _ _ hsame]
      rw [this]
    · simp only [Option.some_inj] at hrun
      subst hrun
      rfl

/-- Witness for C2: a 5×5 board, one mine at (0,0) hidden, cell (1,1)
revealed, difficulty with 1 mine. -/
theorem checkWin_iff_revealed_safe_witness :
    (checkWin (setCell (setMine (createEmptyBoard 5 5) 0 0) 1 1
        { getCell (setMine (createEmptyBoard 5 5) 0 0) 1 1 with
          status := CellStatus.revealed })
      { name := "w", rows := 5, cols := 5, mines := 1 } = true ↔
      (revealedSafeCount (setCell (setMine (createEmptyBoard 5 5) 0 0) 1 1
        { getCell (setMine (createEmptyBoard 5 5) 0 0) 1 1 with
          status := CellStatus.revealed }) 5 5 : Int) =
        (5 : Int) * (5 : Int) - (1 : Int)) ∧
    checkWin (setCell (setMine (createEmptyBoard 5 5) 0 0) 1 1
        { getCell (setMine (createEmptyBoard 5 5) 0 0) 1 1 with
          status := CellStatus.revealed })
      { name := "w", rows := 5, cols := 5, mines := 1 } = false ∧
    checkWin ((toggleFlag (setCell (setMine (createEmptyBoard 5 5) 0 0) 1 1
        { getCell (setMine (createEmptyBoard 5 5) 0 0) 1 1 with
          status := CellStatus.revealed }) 2 2).get!)
      { name := "w", rows := 5, cols := 5, mines := 1 } =
      checkWin (setCell (setMine (createEmptyBoard 5 5) 0 0) 1 1
        { getCell (setMine (createEmptyBoard 5 5) 0 0) 1 1 with
          status := CellStatus.revealed })
      { name := "w", rows := 5, cols := 5, mines := 1 } := by
  have h := checkWin_iff_revealed_safe
    (setCell (setMine (createEmptyBoard 5 5) 0 0) 1 1
      { getCell (setMine (createEmptyBoard 5 5) 0 0) 1 1 with
        status := CellStatus.revealed })
    { name := "w", rows := 5, cols := 5, mines := 1 } 2 2
    (toggleFlag (setCell (setMine (createEmptyBoard 5 5) 0 0) 1 1
      { getCell (setMine (createEmptyBoard 5 5) 0 0) 1 1 with
        status := CellStatus.revealed }) 2 2).get!
    (by decide)
  exact ⟨h.1, h.2.1 (by decide) 2 2 (by decide) (by decide) (by decide)
    (by decide), h.2.2 (by decide)⟩

/-! ### Session state machine (src/App.tsx, host / single-player logic) -/

/-- `GameStatus` from `types.ts`. -/
inductive GameStatus
  | idle
  | playing
  | won
  | lost
deriving DecidableEq, Repr

/-- The session modes that run the authoritative simulation
(`single` and `multi_host`); a guest only forwards intents. -/
inductive GameMode
  | single
  | multi_host
deriving DecidableEq, Repr

/-- The React state the host/single-player handlers read and write:
`board`, `gameStatus`, `timeElapsed`, `flagsCount`, `flagHistory`. -/
structure SessionState where
  board : BoardData
  gameStatus : GameStatus
  timeElapsed : Nat
  flagsCount : Int
  flagHistory : List (Nat × Nat)
deriving DecidableEq, Repr

/-- Payload of a `SYNC_BOARD` message. -/
structure SyncMsg where
  board : BoardData
  status : GameStatus
  time : Nat
  flags : Int
deriving DecidableEq, Repr

/-- `syncStateToGuest`: sends one `SYNC_BOARD` when in `multi_host` mode,
nothing otherwise.  Modelled as the list of emitted messages. -/
def syncStateToGuest (mode : GameMode) (currentBoard : BoardData)
    (status : GameStatus) (time : Nat) (flags : Int) : List SyncMsg :=
  if mode = GameMode.multi_host then
    [{ board := currentBoard, status := status, time := time, flags := flags }]
  else []

/-- `handleCellClick` (App.tsx, host/single path).  The guest-forwarded
`CLICK_CELL` handler calls this same function.  `draws` models the random
stream consumed if this click triggers mine placement (`idle` state); the
flagged-cell guard `board[row] && board[row][col].status === 'flagged'`
crashes in the source when `board[row]` exists but `board[row][col]` is
`undefined`, modelled as `none`. -/
def handleCellClick (mode : GameMode) (d : Difficulty)
    (draws : List (Nat × Nat)) (s : SessionState) (row col : Nat) :
    Option (SessionState × List SyncMsg) :=
  if s.gameStatus = GameStatus.won ∨ s.gameStatus = GameStatus.lost then
    some (s, [])
  else if row < s.board.length ∧ ¬col < (s.board.getD row []).length then
    none
  else if (getCell s.board row col).status = CellStatus.flagged then
    some (s, [])
  else
    (if s.gameStatus = GameStatus.idle then
      (initializeBoardWithMines s.board d row col draws).map
        (fun nb => (nb, GameStatus.playing))
    else some (s.board, s.gameStatus)).bind (fun p =>
      (revealCell p.1 row col).bind (fun q =>
        if q.2 then
          some ({ s with board := revealAllMines q.1 false, gameStatus := GameStatus.lost },
            syncStateToGuest mode (revealAllMines q.1 false) GameStatus.lost
              s.timeElapsed s.flagsCount)
        else if checkWin q.1 d then
          some ({ s with board := revealAllMines q.1 true, gameStatus := GameStatus.won },
            syncStateToGuest mode (revealAllMines q.1 true) GameStatus.won
              s.timeElapsed s.flagsCount)
        else
          some ({ s with board := q.1, gameStatus := p.2 },
            syncStateToGuest mode q.1 p.2 s.timeElapsed s.flagsCount)))

/-- `performFlagToggle` (App.tsx): no-op on a revealed cell, otherwise
adjusts the flag counter, toggles the flag and emits one sync.  Reading
`board[row][col]` out of bounds crashes (`none`). -/
def performFlagToggle (mode : GameMode) (s : SessionState) (row col : Nat) :
    Option (SessionState × List SyncMsg) :=
  if row < s.board.length ∧ col < (s.board.getD row []).length then
    if (getCell s.board row col).status = CellStatus.revealed then
      some (s, [])
    else
      (toggleFlag s.board row col).map (fun newBoard =>
        let newFlags : Int :=
          if (getCell s.board row col).status = CellStatus.hidden then
            s.flagsCount + 1
          else if (getCell s.board row col).status = CellStatus.flagged then
            s.flagsCount - 1
          else s.flagsCount
        ({ s with board := newBoard, flagsCount := newFlags },
          syncStateToGuest mode newBoard s.gameStatus s.timeElapsed newFlags))
  else none

/-- `handleRightClick` (App.tsx, host/single path): terminal guard, flag
toggle, then push the coordinates onto the undo history. -/
def handleRightClick (mode : GameMode) (s : SessionState) (row col : Nat) :
    Option (SessionState × List SyncMsg) :=
  if s.gameStatus = GameStatus.won ∨ s.gameStatus = GameStatus.lost then
    some (s, [])
  else
    (performFlagToggle mode s row col).map (fun p =>
      ({ p.1 with flagHistory := p.1.flagHistory ++ [(row, col)] }, p.2))

/-- C8: once the session is `won` or `lost`, both `handleCellClick` and
`handleRightClick` return immediately: unchanged state (board, status, flag
count, timer, history), no `SYNC_BOARD` emitted, no crash — for any
coordinates, mode and draw stream. -/
theorem terminal_state_rejects_intents
    (mode : GameMode) (d : Difficulty) (draws : List (Nat × Nat))
    (s : SessionState) (row col : Nat)
    (hterm : s.gameStatus = GameStatus.won ∨ s.gameStatus = GameStatus.lost) :
    handleCellClick mode d draws s row col = some (s, []) ∧
    handleRightClick mode s row col = some (s, []) := by
  constructor
  · rw [handleCellClick, if_pos hterm]
  · rw [handleRightClick, if_pos hterm]

/-- Witness for C8 on a concrete lost session. -/
theorem terminal_state_rejects_intents_witness :
    handleCellClick GameMode.multi_host
      { name := "w", rows := 5, cols := 5, mines := 3 } []
      { board := createEmptyBoard 5 5, gameStatus := GameStatus.lost,
        timeElapsed := 11, flagsCount := 2, flagHistory := [(1, 1)] } 2 3 =
      some ({ board := createEmptyBoard 5 5, gameStatus := GameStatus.lost,
              timeElapsed := 11, flagsCount := 2,
              flagHistory := [(1, 1)] }, ([] : List SyncMsg)) ∧
    handleRightClick GameMode.multi_host
      { board := createEmptyBoard 5 5, gameStatus := GameStatus.lost,
        timeElapsed := 11, flagsCount := 2, flagHistory := [(1, 1)] } 2 3 =
      some ({ board := createEmptyBoard 5 5, gameStatus := GameStatus.lost,
              timeElapsed := 11, flagsCount := 2,
              flagHistory := [(1, 1)] }, ([] : List SyncMsg)) :=
  terminal_state_rejects_intents GameMode.multi_host
    { name := "w", rows := 5, cols := 5, mines := 3 } []
    { board := createEmptyBoard 5 5, gameStatus := GameStatus.lost,
      timeElapsed := 11, flagsCount := 2, flagHistory := [(1, 1)] } 2 3
    (Or.inr rfl)

/-! ### C6: a reveal on a hidden mine while playing -/

theorem revealCell_mine (b : BoardData) (row col : Nat)
    (hr : row < b.length) (hc : col < (b.getD row []).length)
    (hh : (getCell b row col).status = CellStatus.hidden)
    (hm : (getCell b row col).isMine = true) :
    revealCell b row col = some (setCell b row col
      { getCell b row col with status := CellStatus.revealed, exploded := true }, true) := by
  simp only [revealCell]
  rw [if_pos ⟨hr, hc⟩, if_neg (by simp [hh]), if_pos hm]

/-- C6: when the host processes a reveal (local or forwarded `CLICK_CELL`)
at an unflagged hidden mine cell while `playing` and with no previously
exploded cell, the session transitions to `lost`, `exploded = true` holds
exactly at the clicked cell, every unflagged mine is revealed
(already-flagged mines stay flagged), and exactly one `SYNC_BOARD` is
emitted, carrying status `lost` and the final board. -/
theorem handleCellClick_mine_lost_sync
    (d : Difficulty) (draws : List (Nat × Nat)) (s : SessionState)
    (row col rows cols : Nat)
    (hd : dims s.board rows cols)
    (hplaying : s.gameStatus = GameStatus.playing)
    (hrow : row < rows) (hcol : col < cols)
    (hhidden : (getCell s.board row col).status = CellStatus.hidden)
    (hmine : (getCell s.board row col).isMine = true)
    (hnoexp : ∀ r, r < rows → ∀ c, c < cols →
      (getCell s.board r c).exploded = false) :
    ∃ s2, handleCellClick GameMode.multi_host d draws s row col =
        some (s2, [{ board := s2.board, status := GameStatus.lost,
                     time := s.timeElapsed, flags := s.flagsCount }]) ∧
      s2.gameStatus = GameStatus.lost ∧
      (getCell s2.board row col).exploded = true ∧
      (∀ r, r < rows → ∀ c, c < cols → ¬(r = row ∧ c = col) →
        (getCell s2.board r c).exploded = false) ∧
      (∀ r, r < rows → ∀ c, c < cols →
        (getCell s.board r c).isMine = true →
        ((getCell s.board r c).status = CellStatus.flagged →
          (getCell s2.board r c).status = CellStatus.flagged) ∧
        ((getCell s.board r c).status ≠ CellStatus.flagged →
          (getCell s2.board r c).status = CellStatus.revealed)) := by
  have hrb : row < s.board.length := by rw [hd.1]; exact hrow
  have hcb : col < (s.board.getD row []).length := by
    rw [hd.2 row hrow]; exact hcol
  have hterm : ¬(s.gameStatus = GameStatus.won ∨
      s.gameStatus = GameStatus.lost) := by
    rw [hplaying]; simp
  have hidle : ¬s.gameStatus = GameStatus.idle := by rw [hplaying]; simp
  have hrev := revealCell_mine s.board row col hrb hcb hhidden hmine
  -- the mutated cell after the explosion
  have hnext_self : getCell (setCell s.board row col
      { getCell s.board row col with status := CellStatus.revealed, exploded := true }) row col =
      { getCell s.board row col with status := CellStatus.revealed, exploded := true } :=
    getCell_setCell_self _ _ _ _ hrb hcb
  have hnext_ne : ∀ r c, ¬(r = row ∧ c = col) →
      getCell (setCell s.board row col
        { getCell s.board row col with status := CellStatus.revealed, exploded := true }) r c = getCell s.board r c :=
    fun r c hne => getCell_setCell_ne _ _ _ _ _ _ hne
  have hnext_len : (setCell s.board row col
      { getCell s.board row col with status := CellStatus.revealed, exploded := true }).length = s.board.length :=
    length_setCell _ _ _ _
  have hnext_row : ∀ i, ((setCell s.board row col
      { getCell s.board row col with status := CellStatus.revealed, exploded := true }).getD i []).length = (s.board.getD i []).length :=
    fun i => rowLen_setCell _ _ _ _ _
  refine ⟨{ s with
      board := revealAllMines (setCell s.board row col
        { getCell s.board row col with status := CellStatus.revealed, exploded := true }) false
      gameStatus := GameStatus.lost }, ?_, ?_, ?_, ?_, ?_⟩
  · rw [handleCellClick, if_neg hterm, if_neg (by intro hh; exact hh.2 hcb),
      if_neg (by rw [hhidden]; intro hh; cases hh), if_neg hidle]
    rw [Option.some_bind, hrev, Option.some_bind]
    rw [if_pos rfl]
    rfl
  · rfl
  · -- exploded at the clicked cell
    have hb : (getCell (setCell s.board row col
        { getCell s.board row col with status := CellStatus.revealed, exploded := true }) row col).isMine = true := by
      rw [hnext_self]
      exact hmine
    rw [getCell_revealAllMines]
    rw [if_pos ⟨by rw [hnext_len]; exact hrb, by rw [hnext_row row]; exact hcb⟩]
    rw [hnext_self]
    simp [hmine]
  · -- no other cell is exploded
    intro r hr c hc hne
    have hrbb : r < s.board.length := by rw [hd.1]; exact hr
    have hcbb : c < (s.board.getD r []).length := by rw [hd.2 r hr]; exact hc
    rw [getCell_revealAllMines,
      if_pos ⟨by rw [hnext_len]; exact hrbb, by rw [hnext_row r]; exact hcbb⟩,
      hnext_ne r c hne]
    split_ifs <;> simp [hnoexp r hr c hc]
  · -- mines: flagged stay flagged, unflagged become revealed
    intro r hr c hc hm2
    have hrbb : r < s.board.length := by rw [hd.1]; exact hr
    have hcbb : c < (s.board.getD r []).length := by rw [hd.2 r hr]; exact hc
    by_cases hne : r = row ∧ c = col
    · constructor
      · intro hflag
        rw [hne.1, hne.2] at hflag
        rw [hhidden] at hflag
        cases hflag
      · intro _
        rw [hne.1, hne.2, getCell_revealAllMines,
          if_pos ⟨by rw [hnext_len]; exact hrb, by rw [hnext_row row]; exact hcb⟩,
          hnext_self]
        simp [hmine]
    · constructor
      · intro hflag
        rw [getCell_revealAllMines,
          if_pos ⟨by rw [hnext_len]; exact hrbb, by rw [hnext_row r]; exact hcbb⟩,
          hnext_ne r c hne]
        rw [if_pos hm2, if_neg (by simp), if_neg (by rw [hflag]; simp)]
        exact hflag
      · intro hflag
        rw [getCell_revealAllMines,
          if_pos ⟨by rw [hnext_len]; exact hrbb, by rw [hnext_row r]; exact hcbb⟩,
          hnext_ne r c hne]
        rw [if_pos hm2, if_neg (by simp), if_pos (by simpa using hflag)]

/-- Witness for C6: a 5×5 playing session, hidden mine at (1,1), click on
(1,1) in host mode. -/
theorem handleCellClick_mine_lost_sync_witness :
    ∃ s2, handleCellClick GameMode.multi_host
        { name := "w", rows := 5, cols := 5, mines := 1 } []
        { board := computeNeighbors 5 5 (setMine (createEmptyBoard 5 5) 1 1),
          gameStatus := GameStatus.playing, timeElapsed := 3,
          flagsCount := 0, flagHistory := [] } 1 1 =
        some (s2, [{ board := s2.board, status := GameStatus.lost,
                     time := 3, flags := 0 }]) ∧
      s2.gameStatus = GameStatus.lost ∧
      (getCell s2.board 1 1).exploded = true ∧
      (∀ r, r < 5 → ∀ c, c < 5 → ¬(r = 1 ∧ c = 1) →
        (getCell s2.board r c).exploded = false) ∧
      (∀ r, r < 5 → ∀ c, c < 5 →
        (getCell (computeNeighbors 5 5
          (setMine (createEmptyBoard 5 5) 1 1)) r c).isMine = true →
        ((getCell (computeNeighbors 5 5
            (setMine (createEmptyBoard 5 5) 1 1)) r c).status =
              CellStatus.flagged →
          (getCell s2.board r c).status = CellStatus.flagged) ∧
        ((getCell (computeNeighbors 5 5
            (setMine (createEmptyBoard 5 5) 1 1)) r c).status ≠
              CellStatus.flagged →
          (getCell s2.board r c).status = CellStatus.revealed)) :=
  handleCellClick_mine_lost_sync
    { name := "w", rows := 5, cols := 5, mines := 1 } []
    { board := computeNeighbors 5 5 (setMine (createEmptyBoard 5 5) 1 1),
      gameStatus := GameStatus.playing, timeElapsed := 3,
      flagsCount := 0, flagHistory := [] } 1 1 5 5
    (by decide) rfl (by decide) (by decide) (by decide) (by decide) (by decide)

/-! ### C7: flag-count bookkeeping -/

theorem cellCount_congr_pointwise (p : CellData → Bool) (b b2 : BoardData)
    (rows cols : Nat) (hd : dims b rows cols) (hd2 : dims b2 rows cols)
    (h : ∀ r, r < rows → ∀ c, c < cols →
      p (getCell b2 r c) = p (getCell b r c)) :
    cellCount p b2 = cellCount p b := by
  rw [cellCount_eq_countIn p b2 rows cols hd2,
    cellCount_eq_countIn p b rows cols hd]
  exact countIn_congr b2 b rows cols p p h

theorem dims_revealAllMines (b : BoardData) (won : Bool) (rows cols : Nat)
    (hd : dims b rows cols) : dims (revealAllMines b won) rows cols := by
  constructor
  · rw [revealAllMines, List.length_map]
    exact hd.1
  · intro r hr
    have hrb : r < b.length := by rw [hd.1]; exact hr
    rw [revealAllMines, getD_map_lt _ b r ([] : List CellData) _ hrb,
      List.length_map]
    exact hd.2 r hr

theorem revealAllMines_false_flagged_pointwise (b : BoardData) (r c : Nat) :
    ((getCell (revealAllMines b false) r c).status == CellStatus.flagged) =
      ((getCell b r c).status == CellStatus.flagged) := by
  rw [getCell_revealAllMines]
  split_ifs with h1 h2 h3 h4
  · cases h3
  · rw [show ({ getCell b r c with
      status := CellStatus.revealed } : CellData).status =
        CellStatus.revealed from rfl]
    have : ((getCell b r c).status == CellStatus.flagged) = false := by
      cases hcase : (getCell b r c).status with
      | flagged => exact absurd hcase h4
      | hidden => rfl
      | revealed => rfl
    rw [this]
    rfl
  · rfl
  · rfl
  · rfl

theorem revealCell_flagged_count (b : BoardData) (row col : Nat)
    (b2 : BoardData) (ex : Bool) (rows cols : Nat) (hd : dims b rows cols)
    (hrun : revealCell b row col = some (b2, ex)) :
    dims b2 rows cols ∧
    cellCount (fun cell => cell.status == CellStatus.flagged) b2 =
      cellCount (fun cell => cell.status == CellStatus.flagged) b := by
  simp only [revealCell] at hrun
  split_ifs at hrun with h1 h2 h3
  · simp only [Option.some_inj, Prod.mk.injEq] at hrun
    rw [← hrun.1]
    exact ⟨hd, rfl⟩
  · simp only [Option.some_inj, Prod.mk.injEq] at hrun
    rw [← hrun.1]
    refine ⟨dims_setCell _ _ _ _ _ _ hd, ?_⟩
    have hcc := cellCount_setCell
      (fun cell => cell.status == CellStatus.flagged) b row col
      { getCell b row col with status := CellStatus.revealed, exploded := true }
      h1.1 h1.2
    have hstat : (getCell b row col).status = CellStatus.hidden := by
      by_contra hcon
      exact h2 hcon
    simp [hstat] at hcc
    omega
  · obtain ⟨bb, hbb, heq⟩ := Option.map_eq_some'.mp hrun
    have hb2 : b2 = bb := (congrArg Prod.fst heq).symm
    subst hb2
    have hframe := bfsLoop_frame_of_some _ _ _ _ hbb
    have hd2 : dims b2 rows cols :=
      ⟨hframe.1.trans hd.1, fun i hi => (hframe.2.1 i).trans (hd.2 i hi)⟩
    refine ⟨hd2, cellCount_congr_pointwise _ _ _ rows cols hd hd2 ?_⟩
    intro r hr c hc
    rcases hframe.2.2 r c with he | ⟨hh, he⟩
    · rw [he]
    · rw [he, hh]
      rfl

theorem initFull_status (excl : Nat → Nat → Bool) (d : Difficulty)
    (b : BoardData) (draws : List (Nat × Nat)) (out : BoardData)
    (hd : dims b d.rows d.cols)
    (hdraws : ∀ x ∈ draws, x.1 < d.rows ∧ x.2 < d.cols)
    (hrun : (placeMinesLoop excl d.mines b 0 draws).map
      (computeNeighbors d.rows d.cols) = some out) :
    dims out d.rows d.cols ∧
    ∀ r c, (getCell out r c).status = (getCell b r c).status := by
  obtain ⟨mid, hmid, hout⟩ := Option.map_eq_some'.mp hrun
  subst hout
  obtain ⟨hmdims, _, hmframe⟩ :=
    placeMinesLoop_spec excl d.mines d.rows d.cols draws b 0 mid hd hdraws
      (Nat.zero_le _) hmid
  refine ⟨dims_computeNeighbors _ _ _ hmdims, fun r c => ?_⟩
  rw [(computeNeighbors_preserve d.rows d.cols mid r c).2.1]
  rcases hmframe r c with he | ⟨_, _, he⟩ <;> rw [he]

theorem performFlagToggle_flag_inv (mode : GameMode) (s : SessionState)
    (row col : Nat) (s1 : SessionState) (msgs : List SyncMsg)
    (hrun : performFlagToggle mode s row col = some (s1, msgs))
    (hinv : (cellCount (fun cell => cell.status == CellStatus.flagged)
      s.board : Int) = s.flagsCount) :
    (cellCount (fun cell => cell.status == CellStatus.flagged)
      s1.board : Int) = s1.flagsCount := by
  simp only [performFlagToggle] at hrun
  split_ifs at hrun with h1 h2 hS hF
  · simp only [Option.some_inj, Prod.mk.injEq] at hrun
    rw [← hrun.1]
    exact hinv
  · have htf : toggleFlag s.board row col = some (setCell s.board row col
        { getCell s.board row col with status := CellStatus.flagged }) := by
      have hc2 : col < s.board[row].length := by
        have h := h1.2
        rwa [List.getD_eq_getElem s.board [] h1.1] at h
      simp [toggleFlag, h1, hS, hc2]
    rw [htf, Option.map_some'] at hrun
    simp only [Option.some_inj, Prod.mk.injEq] at hrun
    obtain ⟨hs1, -⟩ := hrun
    rw [← hs1]
    show (cellCount (fun cell => cell.status == CellStatus.flagged)
      (setCell s.board row col
        { getCell s.board row col with status := CellStatus.flagged }) : Int) =
      s.flagsCount + 1
    have hcc : cellCount (fun cell => cell.status == CellStatus.flagged)
        (setCell s.board row col
          { getCell s.board row col with status := CellStatus.flagged }) +
        (if ((getCell s.board row col).status == CellStatus.flagged) = true
          then 1 else 0) =
        cellCount (fun cell => cell.status == CellStatus.flagged) s.board +
        (if (({ getCell s.board row col with
            status := CellStatus.flagged } : CellData).status ==
            CellStatus.flagged) = true then 1 else 0) :=
      cellCount_setCell _ s.board row col _ h1.1 h1.2
    rw [hS, if_neg (by decide), if_pos (by rfl)] at hcc
    omega
  · have htf : toggleFlag s.board row col = some (setCell s.board row col
        { getCell s.board row col with status := CellStatus.hidden }) := by
      have hc2 : col < s.board[row].length := by
        have h := h1.2
        rwa [List.getD_eq_getElem s.board [] h1.1] at h
      simp [toggleFlag, h1, hS, hF, hc2]
    rw [htf, Option.map_some'] at hrun
    simp only [Option.some_inj, Prod.mk.injEq] at hrun
    obtain ⟨hs1, -⟩ := hrun
    rw [← hs1]
    show (cellCount (fun cell => cell.status == CellStatus.flagged)
      (setCell s.board row col
        { getCell s.board row col with status := CellStatus.hidden }) : Int) =
      s.flagsCount - 1
    have hcc : cellCount (fun cell => cell.status == CellStatus.flagged)
        (setCell s.board row col
          { getCell s.board row col with status := CellStatus.hidden }) +
        (if ((getCell s.board row col).status == CellStatus.flagged) = true
          then 1 else 0) =
        cellCount (fun cell => cell.status == CellStatus.flagged) s.board +
        (if (({ getCell s.board row col with
            status := CellStatus.hidden } : CellData).status ==
            CellStatus.flagged) = true then 1 else 0) :=
      cellCount_setCell _ s.board row col _ h1.1 h1.2
    rw [hF, if_pos (by rfl), if_neg (by simp)] at hcc
    omega
  · exfalso
    cases hst : (getCell s.board row col).status with
    | hidden => exact hS hst
    | revealed => exact h2 hst
    | flagged => exact hF hst

theorem revealFinish_flag_inv (mode : GameMode) (d : Difficulty)
    (s : SessionState) (row col : Nat) (pb : BoardData) (pg : GameStatus)
    (s1 : SessionState) (msgs : List SyncMsg)
    (hdp : dims pb d.rows d.cols)
    (hcp : cellCount (fun cell => cell.status == CellStatus.flagged) pb =
      cellCount (fun cell => cell.status == CellStatus.flagged) s.board)
    (hinv : (cellCount (fun cell => cell.status == CellStatus.flagged)
      s.board : Int) = s.flagsCount)
    (hrest : (revealCell pb row col).bind (fun q =>
      if q.2 then
        some ({ s with board := revealAllMines q.1 false, gameStatus := GameStatus.lost },
          syncStateToGuest mode (revealAllMines q.1 false) GameStatus.lost
            s.timeElapsed s.flagsCount)
      else if checkWin q.1 d then
        some ({ s with board := revealAllMines q.1 true, gameStatus := GameStatus.won },
          syncStateToGuest mode (revealAllMines q.1 true) GameStatus.won
            s.timeElapsed s.flagsCount)
      else
        some ({ s with board := q.1, gameStatus := pg },
          syncStateToGuest mode q.1 pg s.timeElapsed s.flagsCount)) =
      some (s1, msgs))
    (hnw : s1.gameStatus ≠ GameStatus.won) :
    (cellCount (fun cell => cell.status == CellStatus.flagged)
      s1.board : Int) = s1.flagsCount := by
  obtain ⟨q, hq, hfin⟩ := Option.bind_eq_some.mp hrest
  obtain ⟨hdq, hcq⟩ := revealCell_flagged_count pb row col q.1 q.2 d.rows d.cols hdp hq
  split_ifs at hfin with hex hwin
  · simp only [Option.some_inj, Prod.mk.injEq] at hfin
    obtain ⟨hs1, -⟩ := hfin
    rw [← hs1]
    show (cellCount (fun cell => cell.status == CellStatus.flagged)
      (revealAllMines q.1 false) : Int) = s.flagsCount
    have hre := cellCount_congr_pointwise
      (fun cell => cell.status == CellStatus.flagged) q.1
      (revealAllMines q.1 false) d.rows d.cols hdq
      (dims_revealAllMines q.1 false d.rows d.cols hdq)
      (fun r _ c _ => revealAllMines_false_flagged_pointwise q.1 r c)
    rw [hre, hcq, hcp]
    exact hinv
  · simp only [Option.some_inj, Prod.mk.injEq] at hfin
    obtain ⟨hs1, -⟩ := hfin
    exact absurd (by rw [← hs1]) hnw
  · simp only [Option.some_inj, Prod.mk.injEq] at hfin
    obtain ⟨hs1, -⟩ := hfin
    rw [← hs1]
    show (cellCount (fun cell => cell.status == CellStatus.flagged)
      q.1 : Int) = s.flagsCount
    rw [hcq, hcp]
    exact hinv

/-- C7 (amended): in a host or single-player session whose flag counter
currently equals the number of flagged cells on the board, the invariant is
preserved by `performFlagToggle` (incremented exactly on hidden→flagged,
decremented exactly on flagged→hidden), by `handleRightClick`, and by
`handleCellClick` on every run that does not end in the `won` state.  The
original claim is false on the win path: `revealAllMines(board, true)`
auto-flags every mine while `flagsCount` is left unchanged, so after the
end-of-game disclosure on a win the counter and the live flagged-cell count
disagree (see the counterexample). -/
theorem flagsCount_invariant_preserved (mode : GameMode) (d : Difficulty)
    (draws : List (Nat × Nat)) (s : SessionState) (row col : Nat)
    (hinv : (cellCount (fun cell => cell.status == CellStatus.flagged)
      s.board : Int) = s.flagsCount)
    (hd : dims s.board d.rows d.cols)
    (hdraws : ∀ x ∈ draws, x.1 < d.rows ∧ x.2 < d.cols) :
    (∀ s1 msgs, performFlagToggle mode s row col = some (s1, msgs) →
      (cellCount (fun cell => cell.status == CellStatus.flagged)
        s1.board : Int) = s1.flagsCount) ∧
    (∀ s1 msgs, handleRightClick mode s row col = some (s1, msgs) →
      (cellCount (fun cell => cell.status == CellStatus.flagged)
        s1.board : Int) = s1.flagsCount) ∧
    (∀ s1 msgs, handleCellClick mode d draws s row col = some (s1, msgs) →
      s1.gameStatus ≠ GameStatus.won →
      (cellCount (fun cell => cell.status == CellStatus.flagged)
        s1.board : Int) = s1.flagsCount) := by
  refine ⟨fun s1 msgs hrun =>
    performFlagToggle_flag_inv mode s row col s1 msgs hrun hinv,
    fun s1 msgs hrun => ?_, fun s1 msgs hrun hnw => ?_⟩
  · simp only [handleRightClick] at hrun
    split_ifs at hrun with hterm
    · simp only [Option.some_inj, Prod.mk.injEq] at hrun
      rw [← hrun.1]
      exact hinv
    · obtain ⟨p, hp, heq⟩ := Option.map_eq_some'.mp hrun
      have hpf := performFlagToggle_flag_inv mode s row col p.1 p.2 hp hinv
      have hs1 : ({ p.1 with
        flagHistory := p.1.flagHistory ++ [(row, col)] } : SessionState) = s1 :=
        congrArg Prod.fst heq
      rw [← hs1]
      show (cellCount (fun cell => cell.status == CellStatus.flagged)
        p.1.board : Int) = p.1.flagsCount
      exact hpf
  · simp only [handleCellClick] at hrun
    split_ifs at hrun with hterm hoob hflag hidle
    · simp only [Option.some_inj, Prod.mk.injEq] at hrun
      rw [← hrun.1]
      exact hinv
    · simp only [Option.some_inj, Prod.mk.injEq] at hrun
      rw [← hrun.1]
      exact hinv
    · obtain ⟨p, hp, hrest⟩ := Option.bind_eq_some.mp hrun
      obtain ⟨nb, hnb, hpe⟩ := Option.map_eq_some'.mp hp
      simp only [initializeBoardWithMines] at hnb
      obtain ⟨hdimsNb, hstat⟩ :=
        initFull_status (fun r c => r == row && c == col) d s.board draws nb
          hd hdraws hnb
      have hcnt : cellCount (fun cell => cell.status == CellStatus.flagged) nb =
          cellCount (fun cell => cell.status == CellStatus.flagged) s.board :=
        cellCount_congr_pointwise _ s.board nb d.rows d.cols hd hdimsNb
          (fun r _ c _ => by
            show ((getCell nb r c).status == CellStatus.flagged) =
              ((getCell s.board r c).status == CellStatus.flagged)
            rw [hstat r c])
      have hp1 : p.1 = nb := by rw [← hpe]
      refine revealFinish_flag_inv mode d s row col p.1 p.2 s1 msgs ?_ ?_ hinv hrest hnw
      · rw [hp1]
        exact hdimsNb
      · rw [hp1]
        exact hcnt
    · obtain ⟨p, hp, hrest⟩ := Option.bind_eq_some.mp hrun
      have hp1 : p.1 = s.board := by rw [← Option.some_inj.mp hp]
      refine revealFinish_flag_inv mode d s row col p.1 p.2 s1 msgs ?_ ?_ hinv hrest hnw
      · rw [hp1]
        exact hd
      · rw [hp1]

/-- A 5x5 endgame position: one mine at (0,0) (still hidden, never flagged),
the last safe cell (4,4) still hidden, every other cell revealed.  The
session counter `flagsCount` is 0, matching the zero flagged cells. -/
def winDemoBoard : BoardData :=
  (List.range 5).map (fun r => (List.range 5).map (fun c =>
    { row := r, col := c, isMine := r == 0 && c == 0,
      status := if r == 0 && c == 0 then CellStatus.hidden
        else if r == 4 && c == 4 then CellStatus.hidden
        else CellStatus.revealed,
      neighborMines := if r ≤ 1 && c ≤ 1 && !(r == 0 && c == 0) then 1 else 0,
      exploded := false }))

/-- C7 counterexample: clicking the last safe cell (4,4) wins the game; the
mine-disclosure step `revealAllMines(board, true)` auto-flags the mine at
(0,0), so the resulting board has one flagged cell while `flagsCount` is
still 0 — the claimed invariant is broken by the end-of-game disclosure. -/
theorem flagsCount_win_disclosure_breaks :
    (handleCellClick GameMode.multi_host
      { name := "w", rows := 5, cols := 5, mines := 1 } []
      { board := winDemoBoard, gameStatus := GameStatus.playing,
        timeElapsed := 7, flagsCount := 0, flagHistory := [] } 4 4).map
      (fun p => (p.1.gameStatus,
        cellCount (fun cell => cell.status == CellStatus.flagged) p.1.board,
        p.1.flagsCount)) =
    some (GameStatus.won, 1, 0) := by decide

theorem flagsCount_invariant_preserved_witness :
    (handleCellClick GameMode.single
      { name := "w", rows := 5, cols := 5, mines := 1 } []
      { board := winDemoBoard, gameStatus := GameStatus.playing,
        timeElapsed := 7, flagsCount := 0, flagHistory := [] } 0 0).map
      (fun p => ((cellCount (fun cell => cell.status == CellStatus.flagged)
        p.1.board : Int) == p.1.flagsCount)) = some true := by
  cases hres : handleCellClick GameMode.single
      { name := "w", rows := 5, cols := 5, mines := 1 } []
      { board := winDemoBoard, gameStatus := GameStatus.playing,
        timeElapsed := 7, flagsCount := 0, flagHistory := [] } 0 0 with
  | none =>
    have hs : (handleCellClick GameMode.single
        { name := "w", rows := 5, cols := 5, mines := 1 } []
        { board := winDemoBoard, gameStatus := GameStatus.playing,
          timeElapsed := 7, flagsCount := 0, flagHistory := [] } 0 0).isSome =
        true := by decide
    rw [hres] at hs
    cases hs
  | some pr =>
    rw [Option.map_some']
    have hnw : pr.1.gameStatus ≠ GameStatus.won := by
      have h2 : (handleCellClick GameMode.single
          { name := "w", rows := 5, cols := 5, mines := 1 } []
          { board := winDemoBoard, gameStatus := GameStatus.playing,
            timeElapsed := 7, flagsCount := 0, flagHistory := [] } 0 0).map
          (fun p => p.1.gameStatus) = some GameStatus.lost := by decide
      rw [hres, Option.map_some'] at h2
      intro hw
      rw [hw] at h2
      cases Option.some_inj.mp h2
    have hkey := (flagsCount_invariant_preserved GameMode.single
      { name := "w", rows := 5, cols := 5, mines := 1 } []
      { board := winDemoBoard, gameStatus := GameStatus.playing,
        timeElapsed := 7, flagsCount := 0, flagHistory := [] } 0 0
      (by decide) (by decide) (by simp)).2.2 pr.1 pr.2 hres hnw
    simp [hkey]
